import Mathlib

/-
Verification development for the printf-family engine of
grub-core/kern/misc.c (GRUB kernel miscellanea).

Shallow embedding conventions:
  * C byte strings are modelled as `List Nat`, one entry per byte
    (e.g. 37 = '%', 48 = '0', 100 = 'd').  A C string never contains the
    byte 0; the terminating NUL is represented by the end of the list,
    and reading one byte past the end of a list yields 0 (the NUL), as
    `nextc` below does.
  * 64-bit unsigned machine integers are `Nat` with an explicit `% 2 ^ 64`
    wherever the C computation can wrap; `unsigned int` values carry an
    explicit `% 2 ^ 32`.  Signed `long long` containers are `Int`, with
    `u64pat` giving the 64-bit two's-complement bit pattern as a `Nat`.
  * The platform is the common 64-bit non-EFI one: sizeof(void *) =
    sizeof(long) = sizeof(long long) = 8, sizeof(int) = 4,
    GRUB_MACHINE_EFI is undefined and hardware 32-bit division exists
    (GRUB_DIVISION_IN_SOFTWARE = 0), so the `#if` blocks for EFI are not
    part of the model.
-/

/-! ## Character classification helpers (include/grub/misc.h) -/

/-- grub_isspace: c is one of newline, carriage return, space, tab. -/
def grub_isspace (b : Nat) : Bool :=
  b = 10 || b = 13 || b = 32 || b = 9

/-- grub_isdigit: '0' <= c <= '9'. -/
def grub_isdigit (b : Nat) : Bool :=
  48 ≤ b && b ≤ 57

/-- grub_tolower: fold 'A'..'Z' to 'a'..'z', leave everything else alone.
On bytes >= 128 the C `char` is negative so the range test fails and the
byte is returned unchanged, which the byte-level test below also does. -/
def grub_tolower (b : Nat) : Nat :=
  if 65 ≤ b ∧ b ≤ 90 then b + 32 else b

/-! ## grub_divmod64 (misc.c lines 579-627)

The slow path is restoring binary long division: 64 iterations, each
shifting the running remainder m left by one, bringing in the top bit of
n, and subtracting d when the remainder reaches it.  All four registers
are 64-bit, so every left shift is taken modulo 2^64. -/

/-- The `while (bits--)` loop of grub_divmod64.  `bits` counts remaining
iterations; `n`, `q`, `m` are the 64-bit registers of the source. -/
def divLoop (d : Nat) : Nat → Nat → Nat → Nat → Nat × Nat
  | 0, _, q, m => (q, m)
  | bits + 1, n, q, m =>
    -- m <<= 1; if (n & (1ULL << 63)) m |= 1;  (the or is an add: 2*m%2^64 is even)
    let m1 := 2 * m % 2 ^ 64 + n / 2 ^ 63
    -- n <<= 1
    let n1 := 2 * n % 2 ^ 64
    -- q <<= 1; if (m >= d) { q |= 1; m -= d; }
    if d ≤ m1 then divLoop d bits n1 (2 * q % 2 ^ 64 + 1) (m1 - d)
    else divLoop d bits n1 (2 * q % 2 ^ 64) m1

/-- grub_divmod64: returns (quotient, remainder).  The remainder store
through the pointer argument is modelled by the second component (the
source computes m in all cases and stores it only when r is non-null).
Fast path: both operands below 0xffffffff use native 32-bit division. -/
def grub_divmod64 (n d : Nat) : Nat × Nat :=
  if n < 0xffffffff ∧ d < 0xffffffff then (n / d, n % d)
  else divLoop d 64 n 0 0

/-- One restoring-division step: if a = 2*(q*d+r)+b with r < d and b a bit,
then dividing a by d appends the bit (d <= 2r+b) to the quotient. -/
theorem div_step (d q r b a : Nat) (hd : 0 < d) (hr : r < d) (hb : b ≤ 1)
    (ha : a = 2 * (q * d + r) + b) :
    a / d = (if d ≤ 2 * r + b then 2 * q + 1 else 2 * q) ∧
    a % d = (if d ≤ 2 * r + b then 2 * r + b - d else 2 * r + b) := by
  have e1 : d * (2 * q + 1) = 2 * (q * d) + d := by ring
  have e2 : d * (2 * q) = 2 * (q * d) := by ring
  split
  · constructor
    · have h2 : a = (2 * r + b - d) + d * (2 * q + 1) := by omega
      rw [h2, Nat.add_mul_div_left _ _ hd, Nat.div_eq_of_lt (by omega)]
      omega
    · have h2 : a = (2 * r + b - d) + d * (2 * q + 1) := by omega
      rw [h2, Nat.add_mul_mod_self_left, Nat.mod_eq_of_lt (by omega)]
  · constructor
    · have h2 : a = (2 * r + b) + d * (2 * q) := by omega
      rw [h2, Nat.add_mul_div_left _ _ hd, Nat.div_eq_of_lt (by omega)]
      omega
    · have h2 : a = (2 * r + b) + d * (2 * q) := by omega
      rw [h2, Nat.add_mul_mod_self_left, Nat.mod_eq_of_lt (by omega)]

/-- Loop invariant of the restoring division: after processing the top
64 - k bits of P, the registers hold the quotient and remainder of the
processed prefix P / 2^k, and n holds P shifted left by 64 - k places. -/
theorem divLoop_invariant (d : Nat) (hd : 0 < d) :
    ∀ k, k ≤ 64 → ∀ P, P < 2 ^ 64 →
      divLoop d k (P * 2 ^ (64 - k) % 2 ^ 64) (P / 2 ^ k / d) (P / 2 ^ k % d) =
        (P / d, P % d) := by
  intro k
  induction k with
  | zero =>
    intro _ P _
    simp [divLoop]
  | succ j ih =>
    intro hk P hP
    have hj : j ≤ 64 := by omega
    have hj63 : j ≤ 63 := by omega
    -- abbreviations for the registers entering this iteration
    have hbit : P * 2 ^ (64 - (j + 1)) % 2 ^ 64 / 2 ^ 63 = P / 2 ^ j % 2 := by
      have h64 : (2 : Nat) ^ 64 = 2 ^ 63 * 2 := by norm_num
      rw [h64, Nat.mod_mul_right_div_self]
      have h63 : (2 : Nat) ^ 63 = 2 ^ (64 - (j + 1)) * 2 ^ j := by
        rw [← pow_add]
        congr 1
        omega
      rw [h63, mul_comm P _, Nat.mul_div_mul_left _ _ (by positivity)]
    have hpref_le : P / 2 ^ (j + 1) ≤ 2 ^ 63 - 1 := by
      have h1 : P / 2 ^ (j + 1) = P / 2 / 2 ^ j := by
        rw [Nat.div_div_eq_div_mul, ← pow_succ']
      have h2 : P / 2 / 2 ^ j ≤ P / 2 := Nat.div_le_self _ _
      have h3 : P / 2 ≤ (2 ^ 64 - 1) / 2 := Nat.div_le_div_right (by omega)
      have h4 : ((2 : Nat) ^ 64 - 1) / 2 = 2 ^ 63 - 1 := by norm_num
      omega
    have hm_le : P / 2 ^ (j + 1) % d ≤ 2 ^ 63 - 1 :=
      le_trans (Nat.mod_le _ _) hpref_le
    have hq_le : P / 2 ^ (j + 1) / d ≤ 2 ^ 63 - 1 :=
      le_trans (Nat.div_le_self _ _) hpref_le
    have hmsmall : 2 * (P / 2 ^ (j + 1) % d) % 2 ^ 64 = 2 * (P / 2 ^ (j + 1) % d) :=
      Nat.mod_eq_of_lt (by omega)
    have hqsmall : 2 * (P / 2 ^ (j + 1) / d) % 2 ^ 64 = 2 * (P / 2 ^ (j + 1) / d) :=
      Nat.mod_eq_of_lt (by omega)
    -- the shifted n register for the next iteration
    have hn1 : 2 * (P * 2 ^ (64 - (j + 1)) % 2 ^ 64) % 2 ^ 64 = P * 2 ^ (64 - j) % 2 ^ 64 := by
      have h1 : 2 * (P * 2 ^ (64 - (j + 1)) % 2 ^ 64) % 2 ^ 64 =
          2 * (P * 2 ^ (64 - (j + 1))) % 2 ^ 64 := by
        conv_rhs => rw [Nat.mul_mod]
        rw [Nat.mul_mod 2 (P * 2 ^ (64 - (j + 1)) % 2 ^ 64)]
        simp [Nat.mod_mod_of_dvd]
      rw [h1]
      congr 1
      rw [show 64 - j = (64 - (j + 1)) + 1 by omega, pow_succ]
      ring
    -- the reconstructed prefix after this iteration
    have hrec : P / 2 ^ j = 2 * (P / 2 ^ (j + 1)) + P / 2 ^ j % 2 := by
      have h1 : P / 2 ^ j / 2 = P / 2 ^ (j + 1) := by
        rw [Nat.div_div_eq_div_mul, ← pow_succ]
      conv_lhs => rw [← Nat.div_add_mod (P / 2 ^ j) 2]
      omega
    have hstep := div_step d (P / 2 ^ (j + 1) / d) (P / 2 ^ (j + 1) % d)
      (P / 2 ^ j % 2) (P / 2 ^ j) hd (Nat.mod_lt _ hd) (by omega)
      (by
        have e3 := Nat.div_add_mod (P / 2 ^ (j + 1)) d
        have e4 : P / 2 ^ (j + 1) / d * d = d * (P / 2 ^ (j + 1) / d) := by ring
        omega)
    -- now unfold one iteration of the loop
    rw [divLoop]
    simp only [hbit, hmsmall, hqsmall, hn1]
    by_cases hbr : d ≤ 2 * (P / 2 ^ (j + 1) % d) + P / 2 ^ j % 2
    · rw [if_pos hbr]
      have hq' : P / 2 ^ j / d = 2 * (P / 2 ^ (j + 1) / d) + 1 := by
        rw [hstep.1, if_pos hbr]
      have hm' : P / 2 ^ j % d = 2 * (P / 2 ^ (j + 1) % d) + P / 2 ^ j % 2 - d := by
        rw [hstep.2, if_pos hbr]
      rw [← hq', ← hm']
      exact ih hj P hP
    · rw [if_neg hbr]
      have hq' : P / 2 ^ j / d = 2 * (P / 2 ^ (j + 1) / d) := by
        rw [hstep.1, if_neg hbr]
      have hm' : P / 2 ^ j % d = 2 * (P / 2 ^ (j + 1) % d) + P / 2 ^ j % 2 := by
        rw [hstep.2, if_neg hbr]
      rw [← hq', ← hm']
      exact ih hj P hP

/-- grub_divmod64 computes true 64-bit division: for n < 2^64 and d > 0 the
result is (n / d, n % d) on both the fast and the slow path. -/
theorem grub_divmod64_eq (n d : Nat) (hn : n < 2 ^ 64) (hd : 0 < d) :
    grub_divmod64 n d = (n / d, n % d) := by
  unfold grub_divmod64
  split
  · rfl
  · have h := divLoop_invariant d hd 64 (le_refl 64) n hn
    rw [show (64 : Nat) - 64 = 0 from rfl, pow_zero, mul_one, Nat.mod_eq_of_lt hn,
      Nat.div_eq_of_lt hn, Nat.zero_div, Nat.zero_mod] at h
    exact h

/-! ## grub_strtoull (misc.c lines 401-470) -/

/-- The error channel (grub_errno).  grub_strtoull signals numeric overflow
as GRUB_ERR_OUT_OF_RANGE ("overflow is detected") and a digit-free input
as GRUB_ERR_BAD_NUMBER ("unrecognized number"). -/
inductive GrubErr where
  | noErr : GrubErr
  | outOfRange : GrubErr
  | badNumber : GrubErr
deriving DecidableEq

/-- Reading one byte past the end of a string yields its terminating NUL. -/
def nextc : List Nat → Nat × List Nat
  | [] => (0, [])
  | b :: r => (b, r)

/-- The digit-classification block of grub_strtoull's loop body:
`digit = grub_tolower (*str) - '0'` is computed in `unsigned long`
(64-bit, wrapping; the char is signed, so bytes >= 128 enter as
negatives); letters are folded by `digit += '0' - 'a' + 10`; the loop
breaks on `digit > 9` in between, or on `digit >= base` after.
Returns the consumed digit value, or none when the loop breaks at b. -/
def digitOf (base b : Nat) : Option Nat :=
  let t := grub_tolower b
  let s : Int := if 128 ≤ t then (t : Int) - 256 else (t : Int)
  let d0 : Nat := ((s - 48).emod (2 ^ 64)).toNat
  if 49 ≤ d0 then (if d0 - 39 < base then some (d0 - 39) else none)
  else if 9 < d0 then none
  else if d0 < base then some d0 else none

/-- The `while (*str)` accumulation loop of grub_strtoull.  Returns the
value, the error signalled (if any), and the final `*end` position (none
when the error path returns without setting *end). -/
def strtoullLoop (base : Nat) : List Nat → Nat → Bool → Nat × GrubErr × Option (List Nat)
  | [], num, found =>
    if found then (num, GrubErr.noErr, some []) else (0, GrubErr.badNumber, none)
  | b :: rest, num, found =>
    match digitOf base b with
    | none =>
      if found then (num, GrubErr.noErr, some (b :: rest)) else (0, GrubErr.badNumber, none)
    | some digit =>
      -- NUM * BASE + DIGIT > ~0ULL, tested as num > divmod64(~0ULL - digit, base)
      if (grub_divmod64 (2 ^ 64 - 1 - digit) base).1 < num then
        (2 ^ 64 - 1, GrubErr.outOfRange, none)
      else strtoullLoop base rest (num * base + digit) true

/-- The whitespace-skip and base-resolution prologue of grub_strtoull
(lines 408-430): skip whitespace; a "0x" prefix forces base 16 and is
skipped when base is 0 or 16; a leading '0' followed by an octal digit
guesses 8 when base is 0; base 0 otherwise defaults to 10.  Returns the
active base and the position where digit accumulation starts. -/
def strtoullStart (str : List Nat) (base : Nat) : Nat × List Nat :=
  let s1 := str.dropWhile grub_isspace
  let b0 := (nextc s1).1
  let b1 := (nextc (nextc s1).2).1
  let bs2 : Nat × List Nat :=
    if b0 = 48 then
      if b1 = 120 then
        if base = 0 ∨ base = 16 then (16, (nextc (nextc s1).2).2) else (base, s1)
      else if base = 0 ∧ 48 ≤ b1 ∧ b1 ≤ 55 then (8, s1)
      else (base, s1)
    else (base, s1)
  (if bs2.1 = 0 then 10 else bs2.1, bs2.2)

/-- grub_strtoull: resolve the start position and base, then accumulate
digits.  Returns (value, error, end position). -/
def grub_strtoull (str : List Nat) (base : Nat) : Nat × GrubErr × Option (List Nat) :=
  strtoullLoop (strtoullStart str base).1 (strtoullStart str base).2 0 false

/-- grub_strtoul: on the modelled platform sizeof(long) = 8, so the
overflow re-check is compiled out and the result is grub_strtoull's. -/
def grub_strtoul (str : List Nat) (base : Nat) : Nat × GrubErr × Option (List Nat) :=
  grub_strtoull str base

/-! ## grub_lltoa (misc.c lines 629-667) -/

/-- Hex digit byte: `(d > 9) ? d + ((c == 'x') ? 'a' : 'A') - 10 : d + '0'`. -/
def hexChar (c d : Nat) : Nat :=
  if 9 < d then d + (if c = 120 then 97 else 65) - 10 else d + 48

/-- The base-16 do-while loop of grub_lltoa: emit the low nibble first,
shift right by four, loop while the value is non-zero.  The recursion is
driven by a fuel counter; the wrapper passes 65, which strictly exceeds
the 16 nibbles of any 64-bit value, so the loop always exhausts the
value (reaching the n / 16 = 0 exit) exactly as the source does. -/
def hexGo (c : Nat) : Nat → Nat → List Nat
  | 0, _ => []
  | fuel + 1, n =>
    hexChar c (n % 16) :: (if n / 16 = 0 then [] else hexGo c fuel (n / 16))

def hexLoop (c : Nat) (n : Nat) : List Nat := hexGo c 65 n

/-- The base-10 do-while loop of grub_lltoa: repeated grub_divmod64 by
ten, emitting the remainder digit first (least significant first).  Fuel
as in hexGo: 65 strictly exceeds the 20 decimal digits of any 64-bit
value. -/
def decGo : Nat → Nat → List Nat
  | 0, _ => []
  | fuel + 1, n =>
    ((grub_divmod64 n 10).2 + 48) ::
      (if (grub_divmod64 n 10).1 = 0 then [] else decGo fuel (grub_divmod64 n 10).1)

def decLoop (n : Nat) : List Nat := decGo 65 n

/-- grub_lltoa: c is the conversion byte ('x' = 120, 'X' = 88, 'd' = 100,
anything else renders decimal); n0 is the 64-bit pattern of the long long
argument.  A negative decimal value emits '-' and negates in unsigned
space; digits are accumulated least-significant-first and reversed in
place (grub_reverse), leaving a leading '-' untouched. -/
def grub_lltoa (c : Nat) (n0 : Nat) : List Nat :=
  let neg := 2 ^ 63 ≤ n0 ∧ c = 100
  let n := if neg then (2 ^ 64 - n0) % 2 ^ 64 else n0
  let digs := if c = 120 ∨ c = 88 then hexLoop c n else decLoop n
  (if neg then [45] else []) ++ digs.reverse

/-! ## Argument store (union printf_arg, misc.c lines 32-50) -/

/-- 64-bit two's-complement bit pattern of a long long container value. -/
def u64pat (i : Int) : Nat := (i.emod (2 ^ 64)).toNat

/-- An entry of the argument store after the value-extraction pass.
Integer arguments carry the long long container value.  String/pointer
arguments carry the pointed-to bytes (none = NULL pointer); a pointer's
numeric address is abstracted, so `ll` maps non-null pointers to the
stand-in pattern 1 and NULL to 0 - the renderer only uses a pointer's
numeric value for the %s NULL test (and for printing addresses, whose
digits are load-address dependent and outside the model). -/
inductive PrintfVal where
  | num : Int → PrintfVal
  | strp : Option (List Nat) → PrintfVal
deriving DecidableEq

def PrintfVal.ll : PrintfVal → Int
  | .num i => i
  | .strp none => 0
  | .strp (some _) => 1

/-- The byte sequence the %s case reads:
`const char *p = ((char *) (grub_addr_t) curarg) ? : "(null)"`.
The literal "(null)" is the bytes 40,110,117,108,108,41.  Reading a
string through an integer argument dereferences an arbitrary address;
the model reads no bytes there (the NULL pattern still substitutes). -/
def sString : PrintfVal → List Nat
  | .strp none => [40, 110, 117, 108, 108, 41]
  | .strp (some p) => p
  | .num i => if u64pat i = 0 then [40, 110, 117, 108, 108, 41] else []

/-! ## The renderer's per-conversion format state (misc.c lines 929-1000)

FmtSpec holds format1 (minimum width, an unsigned int), format2
(precision, an unsigned int, initially ~0U), zerofill (the fill byte,
' ' or '0'), rightfill (the '-' flag) and curn (the argument index, a
grub_size_t). -/

structure FmtSpec where
  format1 : Nat
  format2 : Nat
  zerofill : Nat
  rightfill : Bool
  curn : Nat
deriving DecidableEq

/-- First byte of a string, reading the terminating NUL at the end. -/
def headB (l : List Nat) : Nat := l.headD 0

/-- grub_strtoul (fmt, &fmt, 10) as the renderer calls it: always at a
position whose first byte is a decimal digit (guarded by grub_isdigit),
so no whitespace skipping or base guessing applies and the call consumes
the maximal decimal digit run.  On overflow grub_strtoull returns the
saturated 2^64 - 1 *without* setting *end*, so the position is left
unchanged; otherwise the value of the digit run is returned and the
position advances past it.  (The agreement with grub_strtoull is proven
below in grub_strtoul_digits.) -/
def widthArg (l : List Nat) : Nat × List Nat :=
  let v := (l.takeWhile grub_isdigit).foldl (fun a b => a * 10 + (b - 48)) 0
  if 2 ^ 64 - 1 < v then (2 ^ 64 - 1, l) else (v, l.dropWhile grub_isdigit)

theorem widthArg_snd_le (l : List Nat) : (widthArg l).2.length ≤ l.length := by
  unfold widthArg
  dsimp only
  split
  · exact le_refl _
  · exact (l.dropWhile_sublist grub_isdigit).length_le

/-- `if (*fmt == '-') fmt++` -/
def psFlag (l : List Nat) : List Nat := if headB l = 45 then l.tail else l

/-- `if (grub_isdigit (*fmt)) grub_strtoul (fmt, &fmt, 10)` -/
def psWidth (l : List Nat) : List Nat := if grub_isdigit (headB l) then (widthArg l).2 else l

/-- `if (*fmt == '.') fmt++` -/
def psDot (l : List Nat) : List Nat := if headB l = 46 then l.tail else l

theorem psFlag_length_le (l : List Nat) : (psFlag l).length ≤ l.length := by
  unfold psFlag
  split
  · simp [List.length_tail]
  · exact le_refl _

theorem psWidth_length_le (l : List Nat) : (psWidth l).length ≤ l.length := by
  unfold psWidth
  split
  · exact widthArg_snd_le l
  · exact le_refl _

theorem psDot_length_le (l : List Nat) : (psDot l).length ≤ l.length := by
  unfold psDot
  split
  · simp [List.length_tail]
  · exact le_refl _

/-- The flags/width/precision/positional block of grub_vsnprintf_real
(lines 945-977), including the `goto rescan` loop: a '-' sets rightfill;
a digit run sets format1 and, when it begins with '0', zerofill; a '.'
skips to the precision digit run for format2; a trailing '$' turns the
just-parsed format1 into the 1-based argument index (computed as the
unsigned-int wrap format1 - 1), resets all collected state and rescans.
The rescan loop is driven by a fuel counter; every rescan consumes at
least the '$', so the wrapper's fmt.length + 1 fuel never runs out
(parseSpec_eq below recovers the exact source-shaped unfolding). -/
def parseSpecGo : Nat → List Nat → FmtSpec → FmtSpec × List Nat
  | 0, fmt, sp => (sp, fmt)
  | fuel + 1, fmt, sp =>
    let f1 := psFlag fmt
    let rf := if headB fmt = 45 then true else sp.rightfill
    let zf := if grub_isdigit (headB f1) then (if headB f1 = 48 then 48 else sp.zerofill)
      else sp.zerofill
    let fo1 := if grub_isdigit (headB f1) then (widthArg f1).1 % 2 ^ 32 else sp.format1
    let f2 := psWidth f1
    let f3 := psDot f2
    let fo2 := if grub_isdigit (headB f3) then (widthArg f3).1 % 2 ^ 32 else sp.format2
    let f4 := psWidth f3
    if headB f4 = 36 then
      parseSpecGo fuel f4.tail ⟨0, 2 ^ 32 - 1, 32, false, (fo1 + (2 ^ 32 - 1)) % 2 ^ 32⟩
    else (⟨fo1, fo2, zf, rf, sp.curn⟩, f4)

def parseSpec (fmt : List Nat) (sp : FmtSpec) : FmtSpec × List Nat :=
  parseSpecGo (fmt.length + 1) fmt sp

/-- The byte run a rescan consumes always contains its '$'. -/
theorem parseSpec_consume (fmt : List Nat)
    (h36 : headB (psWidth (psDot (psWidth (psFlag fmt)))) = 36) :
    (psWidth (psDot (psWidth (psFlag fmt)))).tail.length < fmt.length := by
  have h1 := psFlag_length_le fmt
  have h2 := psWidth_length_le (psFlag fmt)
  have h3 := psDot_length_le (psWidth (psFlag fmt))
  have h4 := psWidth_length_le (psDot (psWidth (psFlag fmt)))
  have h5 : psWidth (psDot (psWidth (psFlag fmt))) ≠ [] := by
    intro he
    rw [he] at h36
    simp [headB] at h36
  have h6 : 0 < (psWidth (psDot (psWidth (psFlag fmt)))).length := List.length_pos.mpr h5
  simp only [List.length_tail]
  omega

/-- Any fuel above the format length computes the same spec. -/
theorem parseSpecGo_congr :
    ∀ f1 f2 (fmt : List Nat) (sp : FmtSpec), fmt.length < f1 → fmt.length < f2 →
      parseSpecGo f1 fmt sp = parseSpecGo f2 fmt sp := by
  intro f1
  induction f1 with
  | zero =>
    intro f2 fmt sp h1
    omega
  | succ g1 ih =>
    intro f2 fmt sp h1 h2
    cases f2 with
    | zero => omega
    | succ g2 =>
      simp only [parseSpecGo]
      split
      · rename_i h36
        exact ih g2 _ _ (by have := parseSpec_consume fmt h36; omega)
          (by have := parseSpec_consume fmt h36; omega)
      · rfl

/-- The source-shaped unfolding of parseSpec (the rescan recursion). -/
theorem parseSpec_eq (fmt : List Nat) (sp : FmtSpec) :
    parseSpec fmt sp =
      (let f1 := psFlag fmt
       let rf := if headB fmt = 45 then true else sp.rightfill
       let zf := if grub_isdigit (headB f1) then (if headB f1 = 48 then 48 else sp.zerofill)
         else sp.zerofill
       let fo1 := if grub_isdigit (headB f1) then (widthArg f1).1 % 2 ^ 32 else sp.format1
       let f2 := psWidth f1
       let f3 := psDot f2
       let fo2 := if grub_isdigit (headB f3) then (widthArg f3).1 % 2 ^ 32 else sp.format2
       let f4 := psWidth f3
       if headB f4 = 36 then
         parseSpec f4.tail ⟨0, 2 ^ 32 - 1, 32, false, (fo1 + (2 ^ 32 - 1)) % 2 ^ 32⟩
       else (⟨fo1, fo2, zf, rf, sp.curn⟩, f4)) := by
  conv_lhs => rw [parseSpec]
  simp only [parseSpecGo]
  split
  · rename_i h36
    exact parseSpecGo_congr _ _ _ _ (by have := parseSpec_consume fmt h36; omega)
      (by have := parseSpec_consume fmt h36; omega)
  · rfl

theorem parseSpecGo_snd_le :
    ∀ fuel (fmt : List Nat) (sp : FmtSpec), (parseSpecGo fuel fmt sp).2.length ≤ fmt.length := by
  intro fuel
  induction fuel with
  | zero =>
    intro fmt sp
    simp [parseSpecGo]
  | succ g ih =>
    intro fmt sp
    simp only [parseSpecGo]
    split
    · rename_i h36
      have h1 := ih (psWidth (psDot (psWidth (psFlag fmt)))).tail
        ⟨0, 2 ^ 32 - 1, 32, false,
          ((if grub_isdigit (headB (psFlag fmt)) then (widthArg (psFlag fmt)).1 % 2 ^ 32
            else sp.format1) + (2 ^ 32 - 1)) % 2 ^ 32⟩
      have h2 := parseSpec_consume fmt h36
      omega
    · dsimp only
      have h1 := psFlag_length_le fmt
      have h2 := psWidth_length_le (psFlag fmt)
      have h3 := psDot_length_le (psWidth (psFlag fmt))
      have h4 := psWidth_length_le (psDot (psWidth (psFlag fmt)))
      omega

theorem parseSpec_snd_le (fmt : List Nat) (sp : FmtSpec) :
    (parseSpec fmt sp).2.length ≤ fmt.length :=
  parseSpecGo_snd_le (fmt.length + 1) fmt sp

/-! ## The conversion bodies of grub_vsnprintf_real (misc.c lines 1002-1172) -/

/-- grub_strchr("duxX", b) != NULL.  grub_strchr compares the terminating
NUL as well, so byte 0 (the end of the format string) also matches. -/
def strchrDUXX (b : Nat) : Bool :=
  b = 100 || b = 117 || b = 120 || b = 88 || b = 0

/-- The %C case (lines 1103-1141): bucket the 32-bit code point, emit the
lead byte mask | (code >> shift), then a continuation byte
0x80 | (0x3f & (code >> shift)) for each shift 6 below, down to 0.
Code points above 0x10ffff are replaced by '?' (63, with shift 0, mask 0). -/
def utf8Bytes (code : Nat) : List Nat :=
  if code ≤ 0x7f then [code]
  else if code ≤ 0x7ff then
    [0xc0 ||| (code >>> 6), 0x80 ||| (0x3f &&& code)]
  else if code ≤ 0xffff then
    [0xe0 ||| (code >>> 12), 0x80 ||| (0x3f &&& (code >>> 6)), 0x80 ||| (0x3f &&& code)]
  else if code ≤ 0x10ffff then
    [0xf0 ||| (code >>> 18), 0x80 ||| (0x3f &&& (code >>> 12)),
      0x80 ||| (0x3f &&& (code >>> 6)), 0x80 ||| (0x3f &&& code)]
  else [63]

/-- The d/u/x/X case (lines 1028-1097): render the long long container
through grub_lltoa, then pad to format1 with zerofill - on the left when
right-justified, on the right (with the same zerofill byte) when the '-'
flag was seen. -/
def intEmit (c : Nat) (curarg : Int) (sp : FmtSpec) : List Nat :=
  let s := grub_lltoa c (u64pat curarg)
  let fill := if s.length < sp.format1 then sp.format1 - s.length else 0
  (if sp.rightfill then [] else List.replicate fill sp.zerofill) ++ s ++
    (if sp.rightfill then List.replicate fill sp.zerofill else [])

/-- The %s case (lines 1143-1167): len = min(strlen p, format2) bytes of
the argument string (or of "(null)"), padded to format1 with the zerofill
byte on the side selected by rightfill. -/
def sEmit (v : PrintfVal) (sp : FmtSpec) : List Nat :=
  let p := sString v
  let len := min p.length sp.format2
  let fill := if len < sp.format1 then sp.format1 - len else 0
  (if sp.rightfill then [] else List.replicate fill sp.zerofill) ++ p.take len ++
    (if sp.rightfill then List.replicate fill sp.zerofill else [])

/-- The conversion-letter fetch with length modifiers (lines 979-990):
c = *fmt++; on 'l' or 'h' read again, and once more when the modifier is
doubled; a 'z' whose next byte is in "duxX" (per grub_strchr, also the
terminating NUL) is replaced by that byte. -/
def convLetter (l : List Nat) : Nat × List Nat :=
  let cf := nextc l
  let cf2 :=
    if cf.1 = 108 ∨ cf.1 = 104 then
      (if (nextc cf.2).1 = cf.1 then nextc (nextc cf.2).2 else nextc cf.2)
    else cf
  if cf2.1 = 122 ∧ strchrDUXX (headB cf2.2) then nextc cf2.2 else cf2

theorem nextc_snd_le (l : List Nat) : (nextc l).2.length ≤ l.length := by
  cases l <;> simp [nextc]

theorem convLetter_snd_le (l : List Nat) : (convLetter l).2.length ≤ l.length := by
  unfold convLetter
  dsimp only
  have h1 := nextc_snd_le l
  have h2 := nextc_snd_le (nextc l).2
  have h3 := nextc_snd_le (nextc (nextc l).2).2
  repeat' split
  all_goals
    first
    | omega
    | (rename_i hs
       first
       | (have h4 := nextc_snd_le (if (nextc (nextc l).2).1 = (nextc l).1 then
            nextc (nextc (nextc l).2).2 else nextc (nextc l).2).2
          split at h4 <;> omega)
       | omega)

/-- One %-directive of the render loop (lines 943-1172), starting just
after the '%': parse the format spec, fetch the conversion letter, and
return (emitted bytes, rest of format, new document-order counter n).
A literal %% emits '%' and undoes the n++ (n-- at line 995); a curn at
or beyond args->count emits nothing; 'p' emits "0x" and falls through to
hex; unrecognized letters fall to the default write_char(c). -/
def dirStep (args : List PrintfVal) (fmt : List Nat) (n : Nat) : List Nat × List Nat × Nat :=
  let ps := parseSpec fmt ⟨0, 2 ^ 32 - 1, 32, false, n⟩
  let sp := ps.1
  let cf := convLetter ps.2
  let c := cf.1
  let f4 := cf.2
  if c = 37 then ([37], f4, n)
  else if args.length ≤ sp.curn then ([], f4, n + 1)
  else
    let v := args.getD sp.curn (PrintfVal.num 0)
    if c = 112 then (48 :: 120 :: intEmit 120 v.ll sp, f4, n + 1)
    else if c = 120 ∨ c = 88 ∨ c = 117 ∨ c = 100 then (intEmit c v.ll sp, f4, n + 1)
    else if c = 99 then ([u64pat v.ll % 256], f4, n + 1)
    else if c = 67 then (utf8Bytes (u64pat v.ll % 2 ^ 32), f4, n + 1)
    else if c = 115 then (sEmit v sp, f4, n + 1)
    else ([c % 256], f4, n + 1)

theorem dirStep_rest_le (args : List PrintfVal) (fmt : List Nat) (n : Nat) :
    (dirStep args fmt n).2.1.length ≤ fmt.length := by
  have h1 := parseSpec_snd_le fmt ⟨0, 2 ^ 32 - 1, 32, false, n⟩
  have h2 := convLetter_snd_le (parseSpec fmt ⟨0, 2 ^ 32 - 1, 32, false, n⟩).2
  unfold dirStep
  dsimp only
  repeat' split
  all_goals dsimp only
  all_goals omega

/-! ## The bounded writer and the render loop (misc.c lines 909-1183) -/

/-- write_char (lines 909-916): store the byte at index *count only when
a destination exists and *count is still below max_len; always increment
*count.  The destination buffer is modelled by the write log st.2, the
ordered list of (index, byte) stores; st.1 is *count. -/
def write_char (hasStr : Bool) (maxLen : Nat) (st : Nat × List (Nat × Nat)) (ch : Nat) :
    Nat × List (Nat × Nat) :=
  (st.1 + 1, if hasStr ∧ st.1 < maxLen then st.2 ++ [(st.1, ch)] else st.2)

/-- A run of consecutive write_char calls, one per byte of bs. -/
def writeChars (hasStr : Bool) (maxLen : Nat) (st : Nat × List (Nat × Nat)) (bs : List Nat) :
    Nat × List (Nat × Nat) :=
  bs.foldl (write_char hasStr maxLen) st

/-- The stores a run of write_char calls performs when the logical cursor
starts at c: byte i of bs is stored at index c + i exactly when a
destination exists and c + i < maxLen. -/
def stored (hasStr : Bool) (maxLen : Nat) : Nat → List Nat → List (Nat × Nat)
  | _, [] => []
  | c, b :: bs =>
    (if hasStr ∧ c < maxLen then [(c, b)] else []) ++ stored hasStr maxLen (c + 1) bs

/-- The `while ((c = *fmt++) != 0)` loop of grub_vsnprintf_real
(lines 929-1173).  Literal bytes go through write_char; a '%' hands the
rest to dirStep.  n is the document-order conversion counter.  The loop
is driven by a fuel counter; every iteration consumes at least one byte,
so the wrapper's fmt.length + 1 fuel never runs out. -/
def renderGo (args : List PrintfVal) (hasStr : Bool) (maxLen : Nat) :
    Nat → List Nat → Nat → Nat × List (Nat × Nat) → Nat × List (Nat × Nat)
  | 0, _, _, st => st
  | _ + 1, [], _, st => st
  | fuel + 1, b :: rest, n, st =>
    if b = 0 then st
    else if b ≠ 37 then
      renderGo args hasStr maxLen fuel rest n (write_char hasStr maxLen st (b % 256))
    else
      renderGo args hasStr maxLen fuel (dirStep args rest n).2.1 (dirStep args rest n).2.2
        (writeChars hasStr maxLen st (dirStep args rest n).1)

def render_loop (args : List PrintfVal) (hasStr : Bool) (maxLen : Nat)
    (fmt : List Nat) (n : Nat) (st : Nat × List (Nat × Nat)) : Nat × List (Nat × Nat) :=
  renderGo args hasStr maxLen (fmt.length + 1) fmt n st

/-- The byte stream grub_vsnprintf_real feeds to write_char: the render
loop's emissions, independent of destination and capacity (the
equivalence with render_loop is render_loop_eq below).  Fuel as in
renderGo. -/
def pureEmitGo (args : List PrintfVal) : Nat → List Nat → Nat → List Nat
  | 0, _, _ => []
  | _ + 1, [], _ => []
  | fuel + 1, b :: rest, n =>
    if b = 0 then []
    else if b ≠ 37 then b % 256 :: pureEmitGo args fuel rest n
    else (dirStep args rest n).1 ++
      pureEmitGo args fuel (dirStep args rest n).2.1 (dirStep args rest n).2.2

def pureEmit (args : List PrintfVal) (fmt : List Nat) (n : Nat) : List Nat :=
  pureEmitGo args (fmt.length + 1) fmt n

/-- Any fuel above the format length emits the same stream. -/
theorem pureEmitGo_congr (args : List PrintfVal) :
    ∀ f1 f2 (fmt : List Nat) (n : Nat), fmt.length < f1 → fmt.length < f2 →
      pureEmitGo args f1 fmt n = pureEmitGo args f2 fmt n := by
  intro f1
  induction f1 with
  | zero =>
    intro f2 fmt n h1
    omega
  | succ g1 ih =>
    intro f2 fmt n h1 h2
    cases f2 with
    | zero => omega
    | succ g2 =>
      cases fmt with
      | nil => rfl
      | cons b rest =>
        simp only [pureEmitGo]
        simp only [List.length_cons] at h1 h2
        by_cases hb : b = 0
        · simp [hb]
        · by_cases h37 : b = 37
          · have hd := dirStep_rest_le args rest n
            simp only [if_neg hb, h37]
            simp only [if_neg (show ¬((37 : Nat) = 0) by decide), if_neg (show ¬((37 : Nat) ≠ 37) by decide)]
            rw [ih g2 _ _ (by omega) (by omega)]
          · simp only [if_neg hb, if_pos h37]
            rw [ih g2 _ _ (by omega) (by omega)]

theorem pureEmit_nil (args : List PrintfVal) (n : Nat) : pureEmit args [] n = [] := rfl

set_option maxHeartbeats 1000000 in
/-- The source-shaped unfolding of pureEmit on a non-empty format. -/
theorem pureEmit_cons (args : List PrintfVal) (b : Nat) (rest : List Nat) (n : Nat) :
    pureEmit args (b :: rest) n =
      if b = 0 then []
      else if b ≠ 37 then b % 256 :: pureEmit args rest n
      else (dirStep args rest n).1 ++
        pureEmit args (dirStep args rest n).2.1 (dirStep args rest n).2.2 := by
  conv_lhs => rw [pureEmit]
  simp only [List.length_cons, pureEmitGo]
  by_cases hb : b = 0
  · simp [hb]
  · by_cases h37 : b = 37
    · simp only [if_neg hb, h37]
      simp only [if_neg (show ¬((37 : Nat) = 0) by decide), if_neg (show ¬((37 : Nat) ≠ 37) by decide)]
      rw [pureEmit]
      exact congrArg (fun x => (dirStep args rest n).1 ++ x)
        (pureEmitGo_congr args _ _ _ _
          (by have := dirStep_rest_le args rest n; omega) (by omega))
    · simp only [if_neg hb, if_pos h37]
      rw [pureEmit]

/-- grub_vsnprintf_real (lines 918-1183): run the render loop from a zero
cursor and an empty buffer, then write the terminating NUL: at index
count if count < max_len, else at max_len - 1 if max_len > 0, nowhere
when max_len = 0.  Returns (count, complete write log). -/
def grub_vsnprintf_real (hasStr : Bool) (maxLen : Nat) (fmt : List Nat)
    (args : List PrintfVal) : Nat × List (Nat × Nat) :=
  let st := render_loop args hasStr maxLen fmt 0 (0, [])
  (st.1,
    if hasStr then
      if st.1 < maxLen then st.2 ++ [(st.1, 0)]
      else if 0 < maxLen then st.2 ++ [(maxLen - 1, 0)]
      else st.2
    else st.2)

/-! ## The bounded writer in terms of the emitted byte stream -/

theorem stored_append (hasStr : Bool) (maxLen : Nat) :
    ∀ (a b : List Nat) (c : Nat),
      stored hasStr maxLen c (a ++ b) =
        stored hasStr maxLen c a ++ stored hasStr maxLen (c + a.length) b := by
  intro a
  induction a with
  | nil =>
    intro b c
    simp [stored]
  | cons x xs ih =>
    intro b c
    have h1 : c + 1 + xs.length = c + (xs.length + 1) := by omega
    simp only [List.cons_append, stored, List.append_eq, ih, List.append_assoc,
      List.length_cons, h1]

theorem writeChars_eq (hasStr : Bool) (maxLen : Nat) :
    ∀ (bs : List Nat) (c : Nat) (l : List (Nat × Nat)),
      writeChars hasStr maxLen (c, l) bs =
        (c + bs.length, l ++ stored hasStr maxLen c bs) := by
  intro bs
  induction bs with
  | nil =>
    intro c l
    simp [writeChars, stored]
  | cons b bs ih =>
    intro c l
    have hw : write_char hasStr maxLen (c, l) b =
        (c + 1, l ++ if hasStr ∧ c < maxLen then [(c, b)] else []) := by
      unfold write_char
      dsimp only
      split <;> simp
    calc writeChars hasStr maxLen (c, l) (b :: bs)
        = writeChars hasStr maxLen (write_char hasStr maxLen (c, l) b) bs := by
          simp [writeChars]
      _ = writeChars hasStr maxLen
            (c + 1, l ++ if hasStr ∧ c < maxLen then [(c, b)] else []) bs := by rw [hw]
      _ = (c + 1 + bs.length,
            (l ++ if hasStr ∧ c < maxLen then [(c, b)] else []) ++
              stored hasStr maxLen (c + 1) bs) := ih _ _
      _ = (c + (b :: bs).length, l ++ stored hasStr maxLen c (b :: bs)) := by
          rw [stored]
          refine Prod.ext ?_ ?_
          · simp
            omega
          · simp [List.append_assoc]

/-- The render loop is the pure byte stream pushed through the bounded
writer: the final cursor advances by the stream length regardless of
destination or capacity, and the log grows by exactly the stores of that
stream. -/
theorem render_loop_eq (args : List PrintfVal) (hasStr : Bool) (maxLen : Nat) :
    ∀ (fmt : List Nat) (n : Nat) (c : Nat) (l : List (Nat × Nat)),
      render_loop args hasStr maxLen fmt n (c, l) =
        (c + (pureEmit args fmt n).length,
          l ++ stored hasStr maxLen c (pureEmit args fmt n)) := by
  suffices h : ∀ (fuel : Nat) (fmt : List Nat) (n c : Nat) (l : List (Nat × Nat)),
      fmt.length < fuel →
      renderGo args hasStr maxLen fuel fmt n (c, l) =
        (c + (pureEmit args fmt n).length,
          l ++ stored hasStr maxLen c (pureEmit args fmt n)) by
    intro fmt n c l
    exact h (fmt.length + 1) fmt n c l (by omega)
  intro fuel
  induction fuel with
  | zero =>
    intro fmt n c l h
    omega
  | succ g ih =>
    intro fmt n c l hlen
    cases fmt with
    | nil =>
      simp [renderGo, pureEmit_nil, stored]
    | cons b rest =>
      simp only [List.length_cons] at hlen
      simp only [renderGo]
      rw [pureEmit_cons]
      by_cases hb : b = 0
      · simp [hb, stored]
      · by_cases h37 : b = 37
        · simp only [if_neg hb, h37]
          simp only [if_neg (show ¬((37 : Nat) = 0) by decide), if_neg (show ¬((37 : Nat) ≠ 37) by decide)]
          have hd := dirStep_rest_le args rest n
          rw [writeChars_eq, ih _ _ _ _ (by omega), stored_append]
          refine Prod.ext ?_ ?_
          · simp
            omega
          · simp [List.append_assoc]
        · simp only [if_neg hb, if_pos h37]
          have hw : write_char hasStr maxLen (c, l) (b % 256) =
              (c + 1, l ++ if hasStr ∧ c < maxLen then [(c, b % 256)] else []) := by
            unfold write_char
            dsimp only
            split <;> simp
          rw [hw, ih _ _ _ _ (by omega)]
          rw [stored]
          refine Prod.ext ?_ ?_
          · simp
            omega
          · simp [List.append_assoc]

/-- Every store of a write run lands below the capacity. -/
theorem stored_mem_lt (hasStr : Bool) (maxLen : Nat) :
    ∀ (bs : List Nat) (c i x : Nat), (i, x) ∈ stored hasStr maxLen c bs → i < maxLen := by
  intro bs
  induction bs with
  | nil =>
    intro c i x hmem
    simp [stored] at hmem
  | cons b bs ih =>
    intro c i x hmem
    simp only [stored, List.mem_append] at hmem
    rcases hmem with hmem | hmem
    · split at hmem
      · rename_i hc
        simp at hmem
        omega
      · simp at hmem
    · exact ih _ _ _ hmem

/-- With a destination present, a write run starting at cursor c stores
min (length, maxLen - c) bytes. -/
theorem stored_true_length (maxLen : Nat) :
    ∀ (bs : List Nat) (c : Nat),
      (stored true maxLen c bs).length = min bs.length (maxLen - c) := by
  intro bs
  induction bs with
  | nil =>
    intro c
    simp [stored]
  | cons b bs ih =>
    intro c
    simp only [stored, List.length_append, ih, List.length_cons]
    split
    · rename_i hc
      simp at hc ⊢
      omega
    · rename_i hc
      simp at hc ⊢
      omega

/-! ## parse_printf_args (misc.c lines 669-907) -/

/-- `if (*fmt == '$') fmt++` / the skip after a positional prefix. -/
def psDollar (l : List Nat) : List Nat := if headB l = 36 then l.tail else l

theorem psDollar_length_le (l : List Nat) : (psDollar l).length ≤ l.length := by
  unfold psDollar
  split
  · simp [List.length_tail]
  · exact le_refl _

/-- The flags/width/precision consumption both scanning passes perform
after '%' (lines 691-710 and 775-799): optional '-', digit run, optional
'$', optional '-', digit run, optional '.', digit run. -/
def scanPrefix (l : List Nat) : List Nat :=
  (psDot ((psFlag (psDollar ((psFlag l).dropWhile grub_isdigit))).dropWhile
    grub_isdigit)).dropWhile grub_isdigit

theorem scanPrefix_length_le (l : List Nat) : (scanPrefix l).length ≤ l.length := by
  unfold scanPrefix
  have h1 := psFlag_length_le l
  have h2 := ((psFlag l).dropWhile_sublist grub_isdigit).length_le
  have h3 := psDollar_length_le ((psFlag l).dropWhile grub_isdigit)
  have h4 := psFlag_length_le (psDollar ((psFlag l).dropWhile grub_isdigit))
  have h5 := ((psFlag (psDollar ((psFlag l).dropWhile grub_isdigit))).dropWhile_sublist
    grub_isdigit).length_le
  have h6 := psDot_length_le ((psFlag (psDollar ((psFlag l).dropWhile
    grub_isdigit))).dropWhile grub_isdigit)
  have h7 := ((psDot ((psFlag (psDollar ((psFlag l).dropWhile grub_isdigit))).dropWhile
    grub_isdigit)).dropWhile_sublist grub_isdigit).length_le
  omega

/-- The conversion letters whose case in pass 1 counts an argument. -/
def isConvByte (b : Nat) : Bool :=
  b = 112 || b = 120 || b = 88 || b = 117 || b = 100 || b = 99 || b = 67 || b = 115

/-- Pass 1 of parse_printf_args (lines 685-745): walk the format and count
the conversions whose final letter is recognized (p x X u d c C s).  The
'%' of a %% is not recognized and counts nothing.  Fuel as in renderGo:
every iteration consumes at least one byte. -/
def parse1Go : Nat → List Nat → Nat
  | 0, _ => 0
  | _ + 1, [] => 0
  | fuel + 1, b :: rest =>
    if b = 0 then 0
    else if b ≠ 37 then parse1Go fuel rest
    else
      (if isConvByte (convLetter (scanPrefix rest)).1 then 1 else 0) +
        parse1Go fuel (convLetter (scanPrefix rest)).2

def parse1 (fmt : List Nat) : Nat := parse1Go (fmt.length + 1) fmt

theorem parse1Go_congr :
    ∀ f1 f2 (fmt : List Nat), fmt.length < f1 → fmt.length < f2 →
      parse1Go f1 fmt = parse1Go f2 fmt := by
  intro f1
  induction f1 with
  | zero =>
    intro f2 fmt h1
    omega
  | succ g1 ih =>
    intro f2 fmt h1 h2
    cases f2 with
    | zero => omega
    | succ g2 =>
      cases fmt with
      | nil => rfl
      | cons b rest =>
        simp only [parse1Go]
        simp only [List.length_cons] at h1 h2
        have hcb : (convLetter (scanPrefix rest)).2.length ≤ rest.length :=
          le_trans (convLetter_snd_le _) (scanPrefix_length_le _)
        by_cases hb : b = 0
        · simp [hb]
        · simp only [if_neg hb]
          by_cases h37 : b ≠ 37
          · simp only [if_pos h37]
            exact ih g2 _ (by omega) (by omega)
          · simp only [if_neg h37]
            rw [ih g2 _ (by omega) (by omega)]

/-- The source-shaped unfolding of pass 1 on a non-empty format. -/
theorem parse1_cons (b : Nat) (rest : List Nat) :
    parse1 (b :: rest) =
      if b = 0 then 0
      else if b ≠ 37 then parse1 rest
      else
        (if isConvByte (convLetter (scanPrefix rest)).1 then 1 else 0) +
          parse1 (convLetter (scanPrefix rest)).2 := by
  conv_lhs => rw [parse1]
  simp only [List.length_cons, parse1Go]
  have hcb : (convLetter (scanPrefix rest)).2.length ≤ rest.length :=
    le_trans (convLetter_snd_le _) (scanPrefix_length_le _)
  by_cases hb : b = 0
  · simp [hb]
  · simp only [if_neg hb]
    by_cases h37 : b ≠ 37
    · simp only [if_pos h37]
      rw [parse1]
    · simp only [if_neg h37]
      rw [parse1]
      exact congrArg (fun k => (if isConvByte (convLetter (scanPrefix rest)).1 then 1 else 0) + k)
        (parse1Go_congr (rest.length + 1) ((convLetter (scanPrefix rest)).2.length + 1) _
          (by omega) (by omega))

/-- Pass 2's modifier fetch (lines 801-828): like convLetter, but also
computing longfmt: 'h' is -1, 'hh' -2, 'l' 1, 'll' 2; a 'z' followed by
one of "duxX" selects the pointer width, 2 on this 64-bit platform. -/
def convLetterL (l : List Nat) : Int × Nat × List Nat :=
  let cf := nextc l
  let cf2 : Int × Nat × List Nat :=
    if cf.1 = 108 ∨ cf.1 = 104 then
      (if (nextc cf.2).1 = cf.1 then ((if cf.1 = 104 then -2 else 2), nextc (nextc cf.2).2)
       else ((if cf.1 = 104 then -1 else 1), nextc cf.2))
    else (0, cf)
  if cf2.2.1 = 122 ∧ strchrDUXX (headB cf2.2.2) then (2, nextc cf2.2.2) else cf2

theorem convLetterL_snd_le (l : List Nat) : (convLetterL l).2.2.length ≤ l.length := by
  unfold convLetterL
  dsimp only
  have h1 := nextc_snd_le l
  have h2 := nextc_snd_le (nextc l).2
  have h3 := nextc_snd_le (nextc (nextc l).2).2
  have h4 := nextc_snd_le (if (nextc (nextc l).2).1 = (nextc l).1 then
    nextc (nextc (nextc l).2).2 else nextc (nextc l).2).2
  split at h4 <;> repeat' split
  all_goals dsimp only
  all_goals omega

/-- grub_strtoull (p, 0, 10) as pass 2 reads a positional index: p sits at
the (possibly empty) digit run before a '$', so no whitespace or 0x/octal
prefix applies (the first byte is a digit or the '$').  The run's decimal
value is returned, saturated to 2^64 - 1 on overflow; an empty run takes
the BAD_NUMBER path and yields the sentinel 0.  (Agreement with
grub_strtoull is proven in grub_strtoul_digits below.) -/
def posVal (l : List Nat) : Nat :=
  let v := (l.takeWhile grub_isdigit).foldl (fun a b => a * 10 + (b - 48)) 0
  if 2 ^ 64 - 1 < v then 2 ^ 64 - 1 else v

/-- The type-recording switch of pass 2 (lines 832-863): x/X/u record
UNSIGNED_INT + longfmt, d records INT + longfmt, p and s record the
pointer-width unsigned type (UNSIGNED_LONGLONG on this platform), C and c
record INT; any other letter records nothing.  Type codes: INT8 = 0,
INT16 = 1, INT = 2, LONG = 3, LONGLONG = 4, UINT8 = 5, UINT16 = 6,
UNSIGNED_INT = 7, UNSIGNED_LONG = 8, UNSIGNED_LONGLONG = 9. -/
def newType (c : Nat) (longfmt : Int) : Option Nat :=
  if c = 120 ∨ c = 88 ∨ c = 117 then some (7 + longfmt).toNat
  else if c = 100 then some (2 + longfmt).toNat
  else if c = 112 ∨ c = 115 then some 9
  else if c = 67 ∨ c = 99 then some 2
  else none

/-- Pass 2 of parse_printf_args (lines 762-864): re-walk the format with
the document-order counter n, resolve each conversion's argument index
(positional `N$` replaces it by strtoull(N) - 1, wrapping in grub_size_t),
and record the resolved type tag at indices below args->count.  The byte
read right after the flags/width/precision run is compared with '%' first
(line 801): a literal %% undoes the n++ there, BEFORE the l/h/z modifier
parse, so a '%' reached only after a modifier (as in "%l%") is an
ordinary unrecognized letter that keeps the increment and records
nothing.  The bytes consumed after the '%' are the same
flags/width/precision run as in pass 1 (scanPrefix), then the
modifier-and-letter run.  Fuel as in renderGo. -/
def pass2Go : Nat → List Nat → Nat → List Nat → List Nat
  | 0, _, _, tags => tags
  | _ + 1, [], _, tags => tags
  | fuel + 1, b :: rest, n, tags =>
    if b = 0 then tags
    else if b ≠ 37 then pass2Go fuel rest n tags
    else
      let f1 := psFlag rest
      let dig := f1.dropWhile grub_isdigit
      let curn := if headB dig = 36 then (posVal f1 + (2 ^ 64 - 1)) % 2 ^ 64 else n
      let sp := scanPrefix rest
      if (nextc sp).1 = 37 then pass2Go fuel (nextc sp).2 n tags
      else
        let lcf := convLetterL sp
        if tags.length ≤ curn then pass2Go fuel lcf.2.2 (n + 1) tags
        else
          match newType lcf.2.1 lcf.1 with
          | none => pass2Go fuel lcf.2.2 (n + 1) tags
          | some t => pass2Go fuel lcf.2.2 (n + 1) (tags.set curn t)

def pass2 (fmt : List Nat) (n : Nat) (tags : List Nat) : List Nat :=
  pass2Go (fmt.length + 1) fmt n tags

theorem pass2Go_congr :
    ∀ f1 f2 (fmt : List Nat) (n : Nat) (tags : List Nat),
      fmt.length < f1 → fmt.length < f2 →
      pass2Go f1 fmt n tags = pass2Go f2 fmt n tags := by
  intro f1
  induction f1 with
  | zero =>
    intro f2 fmt n tags h1
    omega
  | succ g1 ih =>
    intro f2 fmt n tags h1 h2
    cases f2 with
    | zero => omega
    | succ g2 =>
      cases fmt with
      | nil => rfl
      | cons b rest =>
        simp only [pass2Go]
        simp only [List.length_cons] at h1 h2
        have hcb : (convLetterL (scanPrefix rest)).2.2.length ≤ rest.length :=
          le_trans (convLetterL_snd_le _) (scanPrefix_length_le _)
        have hnb : (nextc (scanPrefix rest)).2.length ≤ rest.length :=
          le_trans (nextc_snd_le _) (scanPrefix_length_le _)
        by_cases hb : b = 0
        · simp [hb]
        · simp only [if_neg hb]
          by_cases h37 : b ≠ 37
          · simp only [if_pos h37]
            exact ih g2 _ _ _ (by omega) (by omega)
          · simp only [if_neg h37]
            repeat' split
            all_goals exact ih g2 _ _ _ (by omega) (by omega)

/-- Sign-extension of the low w bits of a variadic slot value. -/
def sext (w : Nat) (v : Int) : Int :=
  if v.emod (2 ^ w) < 2 ^ (w - 1) then v.emod (2 ^ w) else v.emod (2 ^ w) - 2 ^ w

/-- Zero-extension of the low w bits of a variadic slot value. -/
def zext (w : Nat) (v : Int) : Int := v.emod (2 ^ w)

/-- The value-extraction switch of parse_printf_args (lines 866-906): one
variadic slot is read per argument in index order, converted per the
recorded tag.  The raw slot carries the mathematical integer the caller
passed; a narrower type keeps the matching low bits (every slot is
register sized under the variadic convention).  String pointers pass
through unchanged; their numeric identity is abstract (see PrintfVal). -/
def extractArg (t : Nat) (v : PrintfVal) : PrintfVal :=
  match v with
  | .strp s => .strp s
  | .num i =>
    .num (
      if t = 0 then sext 8 (sext 32 i)        -- INT8: (grub_int8_t) va_arg (int)
      else if t = 1 then sext 16 (sext 32 i)  -- INT16
      else if t = 2 then sext 32 i            -- INT
      else if t = 5 then zext 8 (zext 32 i)   -- UINT8: (grub_uint8_t) va_arg (unsigned)
      else if t = 6 then zext 16 (zext 32 i)  -- UINT16
      else if t = 7 then zext 32 i            -- UNSIGNED_INT
      else sext 64 i)        -- LONG, LONGLONG, UNSIGNED_LONG, UNSIGNED_LONGLONG: 64-bit

/-- parse_printf_args: pass 1 counts the arguments, the tag array starts
zeroed (grub_memset; 0 = INT8), pass 2 records resolved types, and the
extraction loop converts count raw slots.  The heap branch for more than
32 arguments is modelled with the allocation succeeding (on failure the
source truncates the count to 32 and drops the rest). -/
def parse_printf_args (fmt : List Nat) (raw : List PrintfVal) : List PrintfVal :=
  let count := parse1 fmt
  let tags := pass2 fmt 0 (List.replicate count 0)
  (List.range count).map (fun i => extractArg (tags.getD i 0) (raw.getD i (PrintfVal.num 0)))

/-- grub_vsnprintf (lines 1185-1201): parse the arguments, render into
the caller's buffer, free the store, and return ret when there is no
destination, else `ret < n ? ret : n`. -/
def grub_vsnprintf (hasStr : Bool) (n : Nat) (fmt : List Nat) (raw : List PrintfVal) : Nat :=
  let ret := (grub_vsnprintf_real hasStr n fmt (parse_printf_args fmt raw)).1
  if hasStr = false then ret
  else if ret < n then ret else n

/-! ## Behaviour of the grub_strtoull accumulation loop -/

/-- The maximal digit run the accumulation loop consumes under the active
base. -/
def digitsTaken (base : Nat) (s : List Nat) : List Nat :=
  s.takeWhile (fun b => (digitOf base b).isSome)

/-- The positional value of a digit run, most significant digit first. -/
def digitsVal (base : Nat) (ds : List Nat) : Nat :=
  ds.foldl (fun a b => a * base + (digitOf base b).getD 0) 0

theorem digitOf_lt_base (base b d : Nat) (h : digitOf base b = some d) : d < base := by
  simp only [digitOf] at h
  split_ifs at h <;> simp_all

theorem digits_foldl_mono (base : Nat) (hb : 1 ≤ base) :
    ∀ (ds : List Nat) (num : Nat),
      num ≤ ds.foldl (fun a b => a * base + (digitOf base b).getD 0) num := by
  intro ds
  induction ds with
  | nil =>
    intro num
    simp
  | cons d ds ih =>
    intro num
    simp only [List.foldl_cons]
    refine le_trans ?_ (ih (num * base + (digitOf base d).getD 0))
    have h1 : num * 1 ≤ num * base := Nat.mul_le_mul_left num hb
    omega

/-- The guard `num > grub_divmod64 (~0ULL - digit, base, 0)` fires exactly
when num * base + digit leaves the 64-bit range. -/
theorem overflow_check (num digit base : Nat) (hb : 1 ≤ base) (hd : digit < base)
    (hbase : base < 2 ^ 64) :
    ((grub_divmod64 (2 ^ 64 - 1 - digit) base).1 < num ↔
      2 ^ 64 - 1 < num * base + digit) := by
  rw [grub_divmod64_eq _ base (by omega) (by omega)]
  dsimp only
  constructor
  · intro h
    by_contra hc
    push_neg at hc
    have h2 : num ≤ (2 ^ 64 - 1 - digit) / base :=
      (Nat.le_div_iff_mul_le (by omega)).mpr (by omega)
    omega
  · intro h
    by_contra hc
    push_neg at hc
    have h2 := (Nat.le_div_iff_mul_le (show 0 < base by omega)).mp hc
    omega

/-- Full characterisation of the accumulation loop: it consumes the
maximal digit run; if the accumulated value leaves the 64-bit range it
signals OUT_OF_RANGE with the saturated maximum (and *end* untouched);
an empty run with nothing found before signals BAD_NUMBER with value 0;
otherwise it returns the run's value and the end position. -/
theorem strtoullLoop_spec (base : Nat) (hb : 1 ≤ base) (hbase : base < 2 ^ 64) :
    ∀ (s : List Nat) (num : Nat) (found : Bool), num ≤ 2 ^ 64 - 1 →
      strtoullLoop base s num found =
        if 2 ^ 64 - 1 < (digitsTaken base s).foldl
            (fun a b => a * base + (digitOf base b).getD 0) num then
          (2 ^ 64 - 1, GrubErr.outOfRange, none)
        else if found = false ∧ digitsTaken base s = [] then
          (0, GrubErr.badNumber, none)
        else ((digitsTaken base s).foldl (fun a b => a * base + (digitOf base b).getD 0) num,
          GrubErr.noErr, some (s.dropWhile (fun b => (digitOf base b).isSome))) := by
  intro s
  induction s with
  | nil =>
    intro num found hnum
    simp only [digitsTaken, List.takeWhile_nil, List.foldl_nil, List.dropWhile_nil]
    rw [if_neg (by omega)]
    cases found
    · simp [strtoullLoop]
    · simp [strtoullLoop]
  | cons x s ih =>
    intro num found hnum
    cases hdx : digitOf base x with
    | none =>
      have ht : digitsTaken base (x :: s) = [] := by
        simp [digitsTaken, List.takeWhile_cons, hdx]
      have hdw : (x :: s).dropWhile (fun b => (digitOf base b).isSome) = x :: s := by
        simp [List.dropWhile_cons, hdx]
      simp only [strtoullLoop, hdx, ht, hdw, List.foldl_nil]
      rw [if_neg (show ¬(2 ^ 64 - 1 < num) by omega)]
      cases found
      · simp
      · simp
    | some d =>
      have hdlt := digitOf_lt_base base x d hdx
      have ht : digitsTaken base (x :: s) = x :: digitsTaken base s := by
        simp [digitsTaken, List.takeWhile_cons, hdx]
      have hdw : (x :: s).dropWhile (fun b => (digitOf base b).isSome) =
          s.dropWhile (fun b => (digitOf base b).isSome) := by
        simp [List.dropWhile_cons, hdx]
      simp only [strtoullLoop, hdx, ht, hdw, List.foldl_cons, Option.getD_some]
      by_cases hov : 2 ^ 64 - 1 < num * base + d
      · rw [if_pos ((overflow_check num d base hb hdlt hbase).mpr hov)]
        have hmono := digits_foldl_mono base hb (digitsTaken base s) (num * base + d)
        rw [if_pos (by omega)]
      · rw [if_neg (fun hc => hov ((overflow_check num d base hb hdlt hbase).mp hc))]
        rw [ih (num * base + d) true (by omega)]
        by_cases h2 : 2 ^ 64 - 1 < (digitsTaken base s).foldl
            (fun a b => a * base + (digitOf base b).getD 0) (num * base + d)
        · rw [if_pos h2, if_pos h2]
        · rw [if_neg h2, if_neg h2, if_neg (by simp), if_neg (by simp)]

set_option maxRecDepth 40000 in
/-- Under base 10 the loop's digit classification on actual bytes
(b < 256) is exactly grub_isdigit, with value b - '0'. -/
theorem digitOf_ten :
    ∀ b, b < 256 → ((digitOf 10 b).isSome = grub_isdigit b ∧
      (grub_isdigit b = true → digitOf 10 b = some (b - 48))) := by decide

/-- Translation of the loop's digit run to the plain decimal digit run,
for byte strings. -/
theorem ten_translate (l : List Nat) (hbytes : ∀ x ∈ l, x < 256) :
    digitsTaken 10 l = l.takeWhile grub_isdigit ∧
    l.dropWhile (fun b => (digitOf 10 b).isSome) = l.dropWhile grub_isdigit ∧
    ∀ num, (digitsTaken 10 l).foldl (fun a b => a * 10 + (digitOf 10 b).getD 0) num =
      (l.takeWhile grub_isdigit).foldl (fun a b => a * 10 + (b - 48)) num := by
  induction l with
  | nil =>
    simp [digitsTaken]
  | cons b t ih =>
    have hb := hbytes b (by simp)
    have h1 := digitOf_ten b hb
    obtain ⟨ih1, ih2, ih3⟩ := ih (fun x hx => hbytes x (by simp [hx]))
    by_cases hdig : grub_isdigit b
    · have hsome : digitOf 10 b = some (b - 48) := h1.2 hdig
      refine ⟨?_, ?_, ?_⟩
      · simp only [digitsTaken, List.takeWhile_cons, hsome, Option.isSome_some, hdig,
          if_true]
        exact congrArg (b :: ·) ih1
      · simp only [List.dropWhile_cons, hsome, Option.isSome_some, hdig, if_true]
        exact ih2
      · intro num
        simp only [digitsTaken, List.takeWhile_cons, hsome, Option.isSome_some, hdig,
          if_true, List.foldl_cons, Option.getD_some]
        exact ih3 _
    · have hfalse : grub_isdigit b = false := by
        revert hdig
        cases grub_isdigit b <;> simp
      have hnone : (digitOf 10 b).isSome = false := by rw [h1.1, hfalse]
      refine ⟨?_, ?_, ?_⟩
      · simp [digitsTaken, List.takeWhile_cons, hnone, hfalse]
      · simp [List.dropWhile_cons, hnone, hfalse]
      · intro num
        simp [digitsTaken, List.takeWhile_cons, hnone, hfalse]

/-- With base passed as 10 the prologue of grub_strtoull is the identity
on a string not starting with whitespace: no base guessing or 0x skip
can apply. -/
theorem strtoullStart_ten (l : List Nat) (hnospace : grub_isspace (headB l) = false) :
    strtoullStart l 10 = (10, l) := by
  cases l with
  | nil => rfl
  | cons b t =>
    simp only [headB, List.headD_cons] at hnospace
    simp only [strtoullStart, List.dropWhile_cons, hnospace, Bool.false_eq_true, if_false]
    split_ifs <;> simp_all

/-- grub_strtoul (fmt, &fmt, 10) at a decimal-digit position agrees with
widthArg: same value (saturated at 2^64 - 1 on overflow) and same final
position (unchanged on overflow, else past the digit run). -/
theorem grub_strtoul_digits (l : List Nat) (hbytes : ∀ x ∈ l, x < 256)
    (hd : grub_isdigit (headB l) = true) :
    (grub_strtoul l 10).1 = (widthArg l).1 ∧
    (grub_strtoul l 10).2.2.getD l = (widthArg l).2 := by
  obtain ⟨ht, hdw, hfold⟩ := ten_translate l hbytes
  have hne : l.takeWhile grub_isdigit ≠ [] := by
    cases l with
    | nil => simp [headB, grub_isdigit] at hd
    | cons b t =>
      simp only [headB, List.headD_cons] at hd
      simp [List.takeWhile_cons, hd]
  have hsp : grub_isspace (headB l) = false := by
    cases l with
    | nil => rfl
    | cons b t =>
      simp only [headB, List.headD_cons] at hd ⊢
      simp only [grub_isdigit] at hd
      simp only [grub_isspace]
      simp only [Bool.and_eq_true, decide_eq_true_eq] at hd
      simp only [Bool.or_eq_false_iff, decide_eq_false_iff_not]
      omega
  unfold grub_strtoul grub_strtoull
  rw [strtoullStart_ten l hsp]
  dsimp only
  rw [strtoullLoop_spec 10 (by norm_num) (by norm_num) l 0 false (by norm_num)]
  rw [hfold 0, ht, hdw]
  unfold widthArg
  dsimp only
  by_cases hov : 2 ^ 64 - 1 < (l.takeWhile grub_isdigit).foldl (fun a b => a * 10 + (b - 48)) 0
  · rw [if_pos hov, if_pos hov]
    simp
  · rw [if_neg hov, if_neg hov, if_neg (by simp [hne])]
    simp

/-- The same agreement for the positional-index read of pass 2
(grub_strtoull (p, 0, 10) at the head of the digit run before a '$'):
posVal is the saturated value of the digit run, 0 for an empty run
(the BAD_NUMBER sentinel). -/
theorem grub_strtoull_posVal (l : List Nat) (hbytes : ∀ x ∈ l, x < 256)
    (hnospace : grub_isspace (headB l) = false) :
    (grub_strtoull l 10).1 = posVal l := by
  obtain ⟨ht, hdw, hfold⟩ := ten_translate l hbytes
  unfold grub_strtoull
  rw [strtoullStart_ten l hnospace]
  dsimp only
  rw [strtoullLoop_spec 10 (by norm_num) (by norm_num) l 0 false (by norm_num)]
  rw [hfold 0, ht, hdw]
  unfold posVal
  dsimp only
  by_cases hov : 2 ^ 64 - 1 < (l.takeWhile grub_isdigit).foldl (fun a b => a * 10 + (b - 48)) 0
  · rw [if_pos hov, if_pos hov]
  · rw [if_neg hov, if_neg hov]
    by_cases hemp : l.takeWhile grub_isdigit = []
    · rw [if_pos ⟨rfl, hemp⟩, hemp]
      simp
    · rw [if_neg (by simp [hemp])]

/-! ## Scanning a symbolic directive: digit runs and single-byte steps -/

theorem dropWhile_digits_of_headB (t : List Nat)
    (ht : grub_isdigit (headB t) = false) :
    t.dropWhile grub_isdigit = t := by
  cases t with
  | nil => rfl
  | cons b r =>
    simp only [headB, List.headD_cons] at ht
    simp [List.dropWhile_cons, ht]

theorem dropWhile_digits_append (w t : List Nat)
    (hw : ∀ b ∈ w, grub_isdigit b = true)
    (ht : grub_isdigit (headB t) = false) :
    (w ++ t).dropWhile grub_isdigit = t := by
  induction w with
  | nil => simpa using dropWhile_digits_of_headB t ht
  | cons b r ih =>
    have hb := hw b (by simp)
    simp only [List.cons_append, List.dropWhile_cons, hb, if_true]
    exact ih (fun x hx => hw x (by simp [hx]))

theorem takeWhile_digits_append (w t : List Nat)
    (hw : ∀ b ∈ w, grub_isdigit b = true)
    (ht : grub_isdigit (headB t) = false) :
    (w ++ t).takeWhile grub_isdigit = w := by
  induction w with
  | nil =>
    cases t with
    | nil => rfl
    | cons b r =>
      simp only [headB, List.headD_cons] at ht
      simp [List.takeWhile_cons, ht]
  | cons b r ih =>
    have hb := hw b (by simp)
    simp only [List.cons_append, List.takeWhile_cons, hb, if_true]
    exact congrArg (List.cons b) (ih (fun x hx => hw x (by simp [hx])))

theorem headB_digits_or_nil (w t : List Nat)
    (hw : ∀ b ∈ w, grub_isdigit b = true) :
    grub_isdigit (headB (w ++ t)) = true ∨ w = [] := by
  cases w with
  | nil => right; rfl
  | cons b r =>
    left
    simpa [headB] using hw b (by simp)

/-- psWidth on a digit run followed by a non-digit: the run is consumed
whenever its decimal value does not overflow grub_strtoul. -/
theorem psWidth_digits_append (w t : List Nat)
    (hw : ∀ b ∈ w, grub_isdigit b = true)
    (ht : grub_isdigit (headB t) = false)
    (hv : w.foldl (fun a b => a * 10 + (b - 48)) 0 ≤ 2 ^ 64 - 1) :
    psWidth (w ++ t) = t := by
  rcases headB_digits_or_nil w t hw with hdig | hnil
  · unfold psWidth widthArg
    rw [if_pos hdig]
    dsimp only
    rw [takeWhile_digits_append w t hw ht,
      if_neg (show ¬(2 ^ 64 - 1 < w.foldl (fun a b => a * 10 + (b - 48)) 0) by omega)]
    exact dropWhile_digits_append w t hw ht
  · subst hnil
    unfold psWidth
    rw [List.nil_append, if_neg (show ¬(grub_isdigit (headB t) = true) by simp [ht])]

/-! ## Claim theorems -/

/-- Helper: the logical count grub_vsnprintf_real returns is the length
of the emitted byte stream, for any destination and capacity. -/
theorem grub_vsnprintf_real_fst (hasStr : Bool) (maxLen : Nat) (fmt : List Nat)
    (args : List PrintfVal) :
    (grub_vsnprintf_real hasStr maxLen fmt args).1 = (pureEmit args fmt 0).length := by
  simp only [grub_vsnprintf_real, render_loop_eq, Nat.zero_add]

/-- C4: for every pair of 64-bit unsigned integers n and d with d != 0,
grub_divmod64(n, d, &r) returns the quotient and stores the remainder:
n = q * d + r and r < d; in particular divmod(100, 7) = (14, 2) and
divmod(0xFFFFFFFFFFFFFFFF, 10) matches native 64-bit division
(quotient 1844674407370955161, remainder 5).  The function is undefined
only for d = 0 (native division by zero on the fast path). -/
theorem claim_C4 :
    (∀ n d : Nat, n < 2 ^ 64 → d < 2 ^ 64 → d ≠ 0 →
      grub_divmod64 n d = (n / d, n % d) ∧
      n = (grub_divmod64 n d).1 * d + (grub_divmod64 n d).2 ∧
      (grub_divmod64 n d).2 < d) ∧
    grub_divmod64 100 7 = (14, 2) ∧
    grub_divmod64 18446744073709551615 10 = (1844674407370955161, 5) := by
  have hmain : ∀ n d : Nat, n < 2 ^ 64 → d ≠ 0 →
      grub_divmod64 n d = (n / d, n % d) := fun n d hn hd =>
    grub_divmod64_eq n d hn (Nat.pos_of_ne_zero hd)
  refine ⟨fun n d hn _ hd0 => ?_, ?_, ?_⟩
  · have h := hmain n d hn hd0
    refine ⟨h, ?_, ?_⟩
    · rw [h]
      have h2 := Nat.div_add_mod n d
      have h3 : n / d * d = d * (n / d) := by ring
      dsimp only
      omega
    · rw [h]
      exact Nat.mod_lt _ (Nat.pos_of_ne_zero hd0)
  · rw [hmain 100 7 (by norm_num) (by norm_num)]
  · rw [hmain 18446744073709551615 10 (by norm_num) (by norm_num)]

/-- Witness for C4 at the concrete input (100, 7). -/
theorem claim_C4_witness :
    grub_divmod64 100 7 = (100 / 7, 100 % 7) ∧
    100 = (grub_divmod64 100 7).1 * 7 + (grub_divmod64 100 7).2 ∧
    (grub_divmod64 100 7).2 < 7 :=
  claim_C4.1 100 7 (by decide) (by decide) (by decide)

/-- C10: grub_strtoull distinguishes two error kinds: a digit sequence
denoting a value above 2^64 - 1 in the active base signals numeric
overflow (GRUB_ERR_OUT_OF_RANGE) and returns the saturated maximum
0xFFFFFFFFFFFFFFFF; an input with no digits signals the distinct
malformed-number error (GRUB_ERR_BAD_NUMBER) and returns 0 - so a caller
that ignores the signal still receives the defined sentinel value. -/
theorem claim_C10 (str : List Nat) (base : Nat) (hbase : base < 2 ^ 64) :
    (2 ^ 64 - 1 < digitsVal (strtoullStart str base).1
        (digitsTaken (strtoullStart str base).1 (strtoullStart str base).2) →
      grub_strtoull str base = (2 ^ 64 - 1, GrubErr.outOfRange, none)) ∧
    (digitsTaken (strtoullStart str base).1 (strtoullStart str base).2 = [] →
      grub_strtoull str base = (0, GrubErr.badNumber, none)) ∧
    GrubErr.outOfRange ≠ GrubErr.badNumber := by
  have hb1 : 1 ≤ (strtoullStart str base).1 ∧ (strtoullStart str base).1 < 2 ^ 64 := by
    simp only [strtoullStart]
    split_ifs <;> omega
  have hspec := strtoullLoop_spec (strtoullStart str base).1 hb1.1 hb1.2
    (strtoullStart str base).2 0 false (by omega)
  refine ⟨?_, ?_, by simp⟩
  · intro hov
    unfold digitsVal at hov
    unfold grub_strtoull
    rw [hspec, if_pos hov]
  · intro hemp
    unfold grub_strtoull
    rw [hspec, hemp]
    simp

/-- Witness for C10: parsing "18446744073709551616" (one above the
maximum) gives the overflow signal and the saturated maximum; parsing
"x" (no digits) gives the malformed-number signal and 0. -/
theorem claim_C10_witness :
    grub_strtoull
        [49, 56, 52, 52, 54, 55, 52, 52, 48, 55, 51, 55, 48, 57, 53, 53, 49, 54, 49, 54] 10 =
      (2 ^ 64 - 1, GrubErr.outOfRange, none) ∧
    grub_strtoull [120] 10 = (0, GrubErr.badNumber, none) :=
  ⟨(claim_C10 _ 10 (by decide)).1 (by decide),
   (claim_C10 _ 10 (by decide)).2.1 (by decide)⟩

/-- C1: for every format string, argument list, destination and capacity,
the renderer (grub_vsnprintf_real via write_char) never stores a byte at
an index at or beyond max_len - including the final NUL terminator -
while the logical count still reports the length of the full emitted
stream (the true required length). -/
theorem claim_C1 (hasStr : Bool) (maxLen : Nat) (fmt : List Nat) (args : List PrintfVal) :
    (∀ i x : Nat, (i, x) ∈ (grub_vsnprintf_real hasStr maxLen fmt args).2 → i < maxLen) ∧
    (grub_vsnprintf_real hasStr maxLen fmt args).1 = (pureEmit args fmt 0).length := by
  refine ⟨?_, grub_vsnprintf_real_fst hasStr maxLen fmt args⟩
  intro i x hmem
  simp only [grub_vsnprintf_real, render_loop_eq, List.nil_append, Nat.zero_add] at hmem
  split at hmem
  · split at hmem
    · rename_i hlt
      rcases List.mem_append.mp hmem with h | h
      · exact stored_mem_lt _ _ _ _ _ _ h
      · simp at h
        omega
    · split at hmem
      · rename_i hge hpos
        rcases List.mem_append.mp hmem with h | h
        · exact stored_mem_lt _ _ _ _ _ _ h
        · simp at h
          omega
      · exact stored_mem_lt _ _ _ _ _ _ hmem
  · exact stored_mem_lt _ _ _ _ _ _ hmem

/-- Witness for C1: the store log of rendering "a" into a buffer of
capacity 5 contains the store (0, 97), and the claim places it below the
capacity. -/
theorem claim_C1_witness :
    0 < 5 ∧ (grub_vsnprintf_real true 5 [97] []).1 = (pureEmit [] [97] 0).length :=
  ⟨(claim_C1 true 5 [97] []).1 0 97 (by decide), (claim_C1 true 5 [97] []).2⟩

/-- C3: the logical length of a dry run (null destination) equals the
number of bytes the render loop physically stores when run again with a
destination of exactly that capacity, and the logical count does not
depend on whether a destination is present or on its capacity. -/
theorem claim_C3 (fmt : List Nat) (args : List PrintfVal) :
    (∀ (h h2 : Bool) (m m2 : Nat),
      (grub_vsnprintf_real h m fmt args).1 = (grub_vsnprintf_real h2 m2 fmt args).1) ∧
    (render_loop args true ((grub_vsnprintf_real false 0 fmt args).1) fmt 0 (0, [])).2.length =
      (grub_vsnprintf_real false 0 fmt args).1 := by
  constructor
  · intro h h2 m m2
    rw [grub_vsnprintf_real_fst, grub_vsnprintf_real_fst]
  · rw [render_loop_eq, grub_vsnprintf_real_fst]
    simp [stored_true_length]

/-- C2 does not hold as stated: with a destination supplied,
grub_vsnprintf("ab") into capacity 1 returns 1 (the clamped value from
`ret < n ? ret : n`), while the untruncated required length - returned by
the dry run - is 2. -/
theorem claim_C2_counterexample :
    grub_vsnprintf true 1 [97, 98] [] = 1 ∧ grub_vsnprintf false 0 [97, 98] [] = 2 := by
  constructor
  · decide
  · decide

/-- C2 as amended: when a destination buffer is supplied grub_vsnprintf
returns min(untruncated required length, capacity) - so a caller cannot
read the required length from a truncated call; the dry-run form (null
destination) returns the untruncated required length for any capacity
argument. -/
theorem claim_C2_amended (n : Nat) (fmt : List Nat) (raw : List PrintfVal) :
    grub_vsnprintf true n fmt raw = min (grub_vsnprintf false 0 fmt raw) n ∧
    grub_vsnprintf false n fmt raw = grub_vsnprintf false 0 fmt raw := by
  unfold grub_vsnprintf
  rw [grub_vsnprintf_real_fst, grub_vsnprintf_real_fst, grub_vsnprintf_real_fst]
  constructor
  · simp only [Bool.true_eq_false, if_false]
    rw [Nat.min_def]
    split_ifs <;> omega
  · simp

/-- C5 does not hold as stated for capacity 0: with a destination
supplied and max_len = 0 the renderer stores nothing at all - in
particular no terminating NUL is written anywhere, while the claim
requires a terminator write for every capacity. -/
theorem claim_C5_counterexample : (grub_vsnprintf_real true 0 [97] []).2 = [] := by decide

/-- C5 as amended: whenever a destination buffer is supplied and the
capacity is positive, rendering completes by storing a terminating NUL
at index min(logical length, capacity - 1) after the content stores;
with capacity 0 nothing is stored at all. -/
theorem claim_C5_amended (fmt : List Nat) (args : List PrintfVal) (m : Nat) (hm : 0 < m) :
    (grub_vsnprintf_real true m fmt args).2 =
      stored true m 0 (pureEmit args fmt 0) ++
        [(min (pureEmit args fmt 0).length (m - 1), 0)] := by
  simp only [grub_vsnprintf_real, render_loop_eq, List.nil_append, Nat.zero_add, if_true]
  by_cases hlt : (pureEmit args fmt 0).length < m
  · rw [if_pos hlt,
      show min (pureEmit args fmt 0).length (m - 1) = (pureEmit args fmt 0).length by omega]
  · rw [if_neg hlt, if_pos hm,
      show min (pureEmit args fmt 0).length (m - 1) = m - 1 by omega]

/-- Witness for C5 as amended: capacity 1, format "a": the single content
store lands at 0 and the terminator overwrites index min(1, 0) = 0. -/
theorem claim_C5_witness :
    (grub_vsnprintf_real true 1 [97] []).2 =
      stored true 1 0 (pureEmit [] [97] 0) ++ [(min (pureEmit [] [97] 0).length 0, 0)] :=
  claim_C5_amended [97] [] 1 (by decide)

/-- C6 does not hold as stated: rendering 42 with "%-05d" emits the bytes
"42000" (the right padding replicates the scanned zerofill byte '0'),
not "42" followed by spaces - the fill is not forced to space. -/
theorem claim_C6_counterexample :
    pureEmit [PrintfVal.num 42] [37, 45, 48, 53, 100] 0 = [52, 50, 48, 48, 48] ∧
      [52, 50, 48, 48, 48] ≠ [52, 50, 32, 32, 32] := by
  constructor
  · decide
  · decide

/-- C6 as amended: a "%-05d" directive parses to the spec
(format1 = 5, zerofill = '0', rightfill = true) and hands it unchanged to
the integer emitter; for every left-justified integer conversion the
right padding replicates the scanned zerofill byte - '0' when the width
run begins with '0' - never a forced space. -/
theorem claim_C6_amended (args : List PrintfVal) (n : Nat) (rest : List Nat)
    (hn : n < args.length) :
    dirStep args (45 :: 48 :: 53 :: 100 :: rest) n =
      (intEmit 100 (args.getD n (PrintfVal.num 0)).ll ⟨5, 2 ^ 32 - 1, 48, true, n⟩,
        rest, n + 1) ∧
    ∀ c : Nat, ∀ v : Int, ∀ sp : FmtSpec, sp.rightfill = true →
      intEmit c v sp =
        grub_lltoa c (u64pat v) ++
          List.replicate
            (if (grub_lltoa c (u64pat v)).length < sp.format1 then
              sp.format1 - (grub_lltoa c (u64pat v)).length else 0) sp.zerofill := by
  constructor
  · have hps : parseSpec (45 :: 48 :: 53 :: 100 :: rest) ⟨0, 2 ^ 32 - 1, 32, false, n⟩ =
        (⟨5, 2 ^ 32 - 1, 48, true, n⟩, 100 :: rest) := by
      rw [parseSpec_eq]
      simp [psFlag, psWidth, psDot, widthArg, headB, grub_isdigit, List.takeWhile,
        List.dropWhile]
    unfold dirStep
    rw [hps]
    simp only [convLetter, nextc, headB, strchrDUXX]
    norm_num
    exact fun h => absurd h (Nat.not_le.mpr hn)
  · intro c v sp hrf
    simp only [intEmit]
    rw [hrf]
    simp

/-- Witness for C6 as amended at the claim's own example: one argument,
index 0 in range, format tail "-05d". -/
theorem claim_C6_witness :
    0 < ([PrintfVal.num 42] : List PrintfVal).length ∧
      dirStep [PrintfVal.num 42] [45, 48, 53, 100] 0 =
        (intEmit 100 (([PrintfVal.num 42]).getD 0 (PrintfVal.num 0)).ll
          ⟨5, 2 ^ 32 - 1, 48, true, 0⟩, [], 1) :=
  ⟨by decide, (claim_C6_amended [PrintfVal.num 42] 0 [] (by decide)).1⟩

/-- C7 does not hold as stated: rendering "ab" with "%05s" emits
"000ab" - the %s padding replicates the scanned zerofill byte '0', it is
not forced to space. -/
theorem claim_C7_counterexample :
    pureEmit [PrintfVal.strp (some [97, 98])] [37, 48, 53, 115] 0 =
        [48, 48, 48, 97, 98] ∧
      [48, 48, 48, 97, 98] ≠ [32, 32, 32, 97, 98] := by
  constructor
  · decide
  · decide

/-- C7 as amended: a "%05s" directive parses to the spec
(format1 = 5, zerofill = '0', rightfill = false) and hands it unchanged
to the string emitter; for every right-justified %s conversion the left
padding replicates the scanned zerofill byte - '0' when the width run
begins with '0' - never a forced space. -/
theorem claim_C7_amended (args : List PrintfVal) (n : Nat) (rest : List Nat)
    (hn : n < args.length) :
    dirStep args (48 :: 53 :: 115 :: rest) n =
      (sEmit (args.getD n (PrintfVal.num 0)) ⟨5, 2 ^ 32 - 1, 48, false, n⟩,
        rest, n + 1) ∧
    ∀ v : PrintfVal, ∀ sp : FmtSpec, sp.rightfill = false →
      sEmit v sp =
        List.replicate
          (if min (sString v).length sp.format2 < sp.format1 then
            sp.format1 - min (sString v).length sp.format2 else 0) sp.zerofill ++
          (sString v).take (min (sString v).length sp.format2) := by
  constructor
  · have hps : parseSpec (48 :: 53 :: 115 :: rest) ⟨0, 2 ^ 32 - 1, 32, false, n⟩ =
        (⟨5, 2 ^ 32 - 1, 48, false, n⟩, 115 :: rest) := by
      rw [parseSpec_eq]
      simp [psFlag, psWidth, psDot, widthArg, headB, grub_isdigit, List.takeWhile,
        List.dropWhile]
    unfold dirStep
    rw [hps]
    simp only [convLetter, nextc, headB, strchrDUXX]
    norm_num
    exact fun h => absurd h (Nat.not_le.mpr hn)
  · intro v sp hrf
    simp only [sEmit]
    rw [hrf]
    simp

/-- Witness for C7 as amended at the claim's own example: one string
argument, index 0 in range, format tail "05s". -/
theorem claim_C7_witness :
    0 < ([PrintfVal.strp (some [97, 98])] : List PrintfVal).length ∧
      dirStep [PrintfVal.strp (some [97, 98])] [48, 53, 115] 0 =
        (sEmit (([PrintfVal.strp (some [97, 98])]).getD 0 (PrintfVal.num 0))
          ⟨5, 2 ^ 32 - 1, 48, false, 0⟩, [], 1) :=
  ⟨by decide, (claim_C7_amended [PrintfVal.strp (some [97, 98])] 0 [] (by decide)).1⟩

/-- C8 does not hold as stated: rendering "%q%d" with the single argument
5 emits just "q" (byte 113), not "%q5".  The '%' and the flags run are
consumed, only the unrecognized final letter is echoed, and although
pass 1 counts no argument for %q (count = 1), the renderer still advances
the positional counter past it, so the following %d binds to slot 1 -
out of range - and emits nothing. -/
theorem claim_C8_counterexample :
    pureEmit (parse_printf_args [37, 113, 37, 100] [PrintfVal.num 5])
        [37, 113, 37, 100] 0 = [113] ∧
      parse1 [37, 113, 37, 100] = 1 := by
  constructor
  · decide
  · decide
/-- C8 as amended: for a directive of the general shape
%[-][width][.][precision][modifier]<letter> whose final letter is not a
flag, digit, modifier or recognized conversion, the renderer consumes
the whole directive - the '%', flag, width, precision and length
modifier bytes appear nowhere in the output - echoes only the final
letter itself, and only when the current argument slot is below the
argument count, and still advances the positional counter; pass 1 does
not count the directive as an argument. -/
theorem claim_C8_amended (args : List PrintfVal) (n : Nat) (flag dot : Bool)
    (w1 w2 mods : List Nat) (ch : Nat) (rest : List Nat)
    (hw1 : ∀ b ∈ w1, grub_isdigit b = true)
    (hw2 : ∀ b ∈ w2, grub_isdigit b = true)
    (hv1 : w1.foldl (fun a b => a * 10 + (b - 48)) 0 ≤ 2 ^ 64 - 1)
    (hv2 : w2.foldl (fun a b => a * 10 + (b - 48)) 0 ≤ 2 ^ 64 - 1)
    (hdot : dot = false → w2 = [])
    (hmods : mods = [] ∨ mods = [108] ∨ mods = [104] ∨ mods = [108, 108] ∨
      mods = [104, 104])
    (hd : grub_isdigit ch = false)
    (hch : ch ∉ [0, 45, 46, 36, 37, 108, 104, 122, 112, 120, 88, 117, 100, 99, 67, 115]) :
    dirStep args
        ((if flag then [45] else []) ++
          (w1 ++ ((if dot then [46] else []) ++ (w2 ++ (mods ++ ch :: rest))))) n =
      ((if args.length ≤ n then [] else [ch % 256]), rest, n + 1) ∧
    parse1
        (37 :: ((if flag then [45] else []) ++
          (w1 ++ ((if dot then [46] else []) ++ (w2 ++ (mods ++ ch :: rest)))))) =
      parse1 rest := by
  simp only [List.mem_cons, List.not_mem_nil, or_false, not_or] at hch
  obtain ⟨h0, h45, h46, h36, h37, h108, h104, h122, h112, h120, h88, h117, h100, h99,
    h67, h115⟩ := hch
  have hconv : convLetter (mods ++ ch :: rest) = (ch, rest) := by
    rcases hmods with hm | hm | hm | hm | hm <;> subst hm <;>
      simp [convLetter, nextc, headB, strchrDUXX, h108, h104, h122]
  have hMhead : headB (mods ++ ch :: rest) = 108 ∨ headB (mods ++ ch :: rest) = 104 ∨
      headB (mods ++ ch :: rest) = ch := by
    rcases hmods with hm | hm | hm | hm | hm <;> subst hm <;> simp [headB]
  have hMd : grub_isdigit (headB (mods ++ ch :: rest)) = false := by
    rcases hMhead with h | h | h <;> rw [h]
    · decide
    · decide
    · exact hd
  have hM45 : headB (mods ++ ch :: rest) ≠ 45 := by
    rcases hMhead with h | h | h <;> rw [h]
    · decide
    · decide
    · exact h45
  have hM36 : headB (mods ++ ch :: rest) ≠ 36 := by
    rcases hMhead with h | h | h <;> rw [h]
    · decide
    · decide
    · exact h36
  have hM46 : headB (mods ++ ch :: rest) ≠ 46 := by
    rcases hMhead with h | h | h <;> rw [h]
    · decide
    · decide
    · exact h46
  have hR1d : grub_isdigit (headB ((if dot then [46] else []) ++
      (w2 ++ (mods ++ ch :: rest)))) = false := by
    cases dot with
    | false =>
      rw [hdot rfl]
      exact hMd
    | true => rfl
  have hR1head : headB ((if dot then [46] else []) ++ (w2 ++ (mods ++ ch :: rest))) = 46 ∨
      headB ((if dot then [46] else []) ++ (w2 ++ (mods ++ ch :: rest))) =
        headB (mods ++ ch :: rest) := by
    cases dot with
    | false =>
      rw [hdot rfl]
      right
      rfl
    | true =>
      left
      rfl
  have hR145 : headB ((if dot then [46] else []) ++ (w2 ++ (mods ++ ch :: rest))) ≠ 45 := by
    rcases hR1head with h | h <;> rw [h]
    · decide
    · exact hM45
  have hR136 : headB ((if dot then [46] else []) ++ (w2 ++ (mods ++ ch :: rest))) ≠ 36 := by
    rcases hR1head with h | h <;> rw [h]
    · decide
    · exact hM36
  have hT1ne : ∀ k : Nat, grub_isdigit k = false → k ≠ 46 →
      headB (mods ++ ch :: rest) ≠ k →
      headB (w1 ++ ((if dot then [46] else []) ++ (w2 ++ (mods ++ ch :: rest)))) ≠ k := by
    intro k hk hk46 hkM
    rcases headB_digits_or_nil w1 _ hw1 with hdig | hnil
    · intro he
      rw [he, hk] at hdig
      exact Bool.noConfusion hdig
    · subst hnil
      rw [List.nil_append]
      rcases hR1head with h | h <;> rw [h]
      · exact Ne.symm hk46
      · exact hkM
  have e1 : psFlag ((if flag then [45] else []) ++
        (w1 ++ ((if dot then [46] else []) ++ (w2 ++ (mods ++ ch :: rest))))) =
      w1 ++ ((if dot then [46] else []) ++ (w2 ++ (mods ++ ch :: rest))) := by
    cases flag with
    | true => simp [psFlag, headB]
    | false =>
      show psFlag (w1 ++ ((if dot then [46] else []) ++ (w2 ++ (mods ++ ch :: rest)))) =
        w1 ++ ((if dot then [46] else []) ++ (w2 ++ (mods ++ ch :: rest)))
      unfold psFlag
      rw [if_neg (hT1ne 45 (by decide) (by decide) hM45)]
  have e2 : psWidth (w1 ++ ((if dot then [46] else []) ++ (w2 ++ (mods ++ ch :: rest)))) =
      (if dot then [46] else []) ++ (w2 ++ (mods ++ ch :: rest)) :=
    psWidth_digits_append w1 _ hw1 hR1d hv1
  have e3 : psDot ((if dot then [46] else []) ++ (w2 ++ (mods ++ ch :: rest))) =
      w2 ++ (mods ++ ch :: rest) := by
    cases dot with
    | true => simp [psDot, headB]
    | false =>
      rw [hdot rfl]
      show psDot (mods ++ ch :: rest) = mods ++ ch :: rest
      unfold psDot
      rw [if_neg hM46]
  have e4 : psWidth (w2 ++ (mods ++ ch :: rest)) = mods ++ ch :: rest :=
    psWidth_digits_append w2 _ hw2 hMd hv2
  have e5 : (w1 ++ ((if dot then [46] else []) ++ (w2 ++ (mods ++ ch :: rest)))).dropWhile
        grub_isdigit = (if dot then [46] else []) ++ (w2 ++ (mods ++ ch :: rest)) :=
    dropWhile_digits_append w1 _ hw1 hR1d
  have e6 : psDollar ((if dot then [46] else []) ++ (w2 ++ (mods ++ ch :: rest))) =
      (if dot then [46] else []) ++ (w2 ++ (mods ++ ch :: rest)) := by
    unfold psDollar
    rw [if_neg hR136]
  have e7 : psFlag ((if dot then [46] else []) ++ (w2 ++ (mods ++ ch :: rest))) =
      (if dot then [46] else []) ++ (w2 ++ (mods ++ ch :: rest)) := by
    unfold psFlag
    rw [if_neg hR145]
  have e8 : ((if dot then [46] else []) ++ (w2 ++ (mods ++ ch :: rest))).dropWhile
        grub_isdigit = (if dot then [46] else []) ++ (w2 ++ (mods ++ ch :: rest)) :=
    dropWhile_digits_of_headB _ hR1d
  have e9 : (w2 ++ (mods ++ ch :: rest)).dropWhile grub_isdigit = mods ++ ch :: rest :=
    dropWhile_digits_append w2 _ hw2 hMd
  have hsp : scanPrefix ((if flag then [45] else []) ++
        (w1 ++ ((if dot then [46] else []) ++ (w2 ++ (mods ++ ch :: rest))))) =
      mods ++ ch :: rest := by
    unfold scanPrefix
    rw [e1, e5, e6, e7, e8, e3, e9]
  have hps2 : (parseSpec ((if flag then [45] else []) ++
        (w1 ++ ((if dot then [46] else []) ++ (w2 ++ (mods ++ ch :: rest)))))
        ⟨0, 2 ^ 32 - 1, 32, false, n⟩).2 = mods ++ ch :: rest := by
    rw [parseSpec_eq]
    simp only [e1, e2, e3, e4]
    rw [if_neg hM36]
  have hpsc : (parseSpec ((if flag then [45] else []) ++
        (w1 ++ ((if dot then [46] else []) ++ (w2 ++ (mods ++ ch :: rest)))))
        ⟨0, 2 ^ 32 - 1, 32, false, n⟩).1.curn = n := by
    rw [parseSpec_eq]
    simp only [e1, e2, e3, e4]
    rw [if_neg hM36]
  constructor
  · unfold dirStep
    simp only [hps2, hpsc, hconv]
    rw [if_neg h37]
    by_cases hlen : args.length ≤ n
    · simp [hlen]
    · simp [hlen, h112, h120, h88, h117, h100, h99, h67, h115]
  · rw [parse1_cons]
    rw [if_neg (show ¬((37 : Nat) = 0) by decide),
      if_neg (show ¬((37 : Nat) ≠ 37) by decide)]
    rw [hsp, hconv]
    simp [isConvByte, h112, h120, h88, h117, h100, h99, h67, h115]

/-- Witness for C8 as amended at the directive "%-05q" with one argument
in range: the '-', '0', '5' bytes are consumed, only "q" is echoed, and
pass 1 counts nothing. -/
theorem claim_C8_witness :
    dirStep [PrintfVal.num 5] [45, 48, 53, 113] 0 = ([113], [], 1) ∧
      parse1 [37, 45, 48, 53, 113] = parse1 [] := by
  have h := claim_C8_amended [PrintfVal.num 5] 0 true false [48, 53] [] [] 113 []
    (by intro b hb; fin_cases hb <;> decide) (by simp) (by decide) (by decide)
    (fun _ => rfl) (Or.inl rfl) (by decide) (by decide)
  constructor
  · simpa using h.1
  · simpa using h.2

/-- C9 confirmed: a %C conversion encodes the argument code point
(truncated to 32 bits) exactly as claimed: ≤ 0x7f is the byte itself;
≤ 0x7ff two bytes with lead 0xc0 + high bits; ≤ 0xffff three bytes with
lead 0xe0; ≤ 0x10ffff four bytes with lead 0xf0; continuation bytes are
0x80 + the next 6-bit chunk, most significant first; anything larger
becomes the single byte '?'. -/
theorem claim_C9 :
    (∀ i : Int, pureEmit [PrintfVal.num i] [37, 67] 0 = utf8Bytes (u64pat i % 2 ^ 32)) ∧
    ∀ code : Nat,
      (code ≤ 0x7f → utf8Bytes code = [code]) ∧
      (0x7f < code → code ≤ 0x7ff →
        utf8Bytes code = [0xc0 + code / 2 ^ 6, 0x80 + code % 2 ^ 6]) ∧
      (0x7ff < code → code ≤ 0xffff →
        utf8Bytes code =
          [0xe0 + code / 2 ^ 12, 0x80 + code / 2 ^ 6 % 2 ^ 6, 0x80 + code % 2 ^ 6]) ∧
      (0xffff < code → code ≤ 0x10ffff →
        utf8Bytes code =
          [0xf0 + code / 2 ^ 18, 0x80 + code / 2 ^ 12 % 2 ^ 6,
            0x80 + code / 2 ^ 6 % 2 ^ 6, 0x80 + code % 2 ^ 6]) ∧
      (0x10ffff < code → utf8Bytes code = [63]) := by
  have h128 : ∀ y < 64, 128 ||| y = 128 + y := by decide
  have h192 : ∀ y < 64, 192 ||| y = 192 + y := by decide
  have h224 : ∀ y < 32, 224 ||| y = 224 + y := by decide
  have h240 : ∀ y < 16, 240 ||| y = 240 + y := by decide
  have hand : ∀ x : Nat, 63 &&& x = x % 64 := by
    intro x
    rw [Nat.and_comm]
    have := Nat.and_pow_two_sub_one_eq_mod x 6
    norm_num at this
    exact this
  have hshr : ∀ x k : Nat, x >>> k = x / 2 ^ k := fun x k => Nat.shiftRight_eq_div_pow x k
  constructor
  · intro i
    rw [pureEmit_cons]
    rw [if_neg (show ¬((37 : Nat) = 0) by decide),
      if_neg (show ¬((37 : Nat) ≠ 37) by decide)]
    have hps : parseSpec [67] ⟨0, 2 ^ 32 - 1, 32, false, 0⟩ =
        (⟨0, 2 ^ 32 - 1, 32, false, 0⟩, [67]) := by
      rw [parseSpec_eq]
      simp [psFlag, psWidth, psDot, headB, grub_isdigit]
    unfold dirStep
    rw [hps]
    simp [convLetter, nextc, headB, strchrDUXX, PrintfVal.ll, pureEmit_nil]
  · intro code
    refine ⟨?_, ?_, ?_, ?_, ?_⟩
    · intro hc1
      unfold utf8Bytes
      rw [if_pos hc1]
    · intro hc0 hc1
      unfold utf8Bytes
      rw [if_neg (by omega), if_pos hc1, hshr, hand,
        h192 (code / 2 ^ 6) (by omega), h128 (code % 64) (by omega)]
      norm_num
    · intro hc0 hc1
      unfold utf8Bytes
      rw [if_neg (by omega), if_neg (by omega), if_pos hc1, hshr, hshr, hand, hand,
        h224 (code / 2 ^ 12) (by omega), h128 (code / 2 ^ 6 % 64) (by omega),
        h128 (code % 64) (by omega)]
      norm_num
    · intro hc0 hc1
      unfold utf8Bytes
      rw [if_neg (by omega), if_neg (by omega), if_neg (by omega), if_pos hc1,
        hshr, hshr, hshr, hand, hand, hand,
        h240 (code / 2 ^ 18) (by omega), h128 (code / 2 ^ 12 % 64) (by omega),
        h128 (code / 2 ^ 6 % 64) (by omega), h128 (code % 64) (by omega)]
      norm_num
    · intro hc0
      unfold utf8Bytes
      rw [if_neg (by omega), if_neg (by omega), if_neg (by omega), if_neg (by omega)]

/-- Witness for C9 at code point 955 (GREEK SMALL LETTER LAMDA): the
rendered bytes are the two-byte sequence 0xce 0xbb. -/
theorem claim_C9_witness :
    pureEmit [PrintfVal.num 955] [37, 67] 0 = utf8Bytes (u64pat 955 % 2 ^ 32) ∧
      (127 < 955 ∧ 955 ≤ 2047) ∧
      utf8Bytes 955 = [0xc0 + 955 / 2 ^ 6, 0x80 + 955 % 2 ^ 6] :=
  ⟨claim_C9.1 955, ⟨by decide, by decide⟩, (claim_C9.2 955).2.1 (by decide) (by decide)⟩
